import Mathlib

/-!
# Signature matching engine of `main.go`

A shallow embedding of the detection engine of `src/main.go` (pattern
compilation, category resolution, per-signal detection, version resolution,
exclude/imply resolution) and theorems about it.

Conventions of the embedding.

* A Go `string` is a `List Char` (`Str`); string literals are written
  `"...".toList`.  Go compares strings byte by byte; on UTF-8 text that is the
  lexicographic comparison of the characters, which is the one used here.
  `strings.ToLower` maps every character by `unicode.ToLower`, a function
  of a package outside the repository: it is the parameter `lowerRune` of the
  functions that lower-case a name.  The examples, whose texts are ASCII, use
  the ASCII mapping.  The matcher of the examples folds the case of the
  ASCII letters, and the letters and digits of a group name in a replacement
  text (`isNameChar`) are those of ASCII.
* A Go `map[string]T` is an association list `GoMap T`.  Ranging over a map
  traverses the list from left to right, so the iteration order of Go (which
  is unspecified) is the order of the list.
* A value of type `interface{}` produced by `json.Unmarshal` is a `Val`.
* A failed type assertion `v.(string)` and a nil dereference panic; functions
  that can panic return `Option`, `none` being the panic.
* The package `regexp` is not part of the repository.  A compiled expression
  is a `Regexp`, which carries the function `FindAllStringSubmatch`;
  `regexp.Compile` is a parameter `compile` of the functions that call it.
  The two expressions that `detectVersion` builds itself are fixed up to the
  index of the capture, and their `FindAll` and `ReplaceAllString` are
  written out (`findAllTernary`, `replaceAllString`).  For the concrete
  inputs of examples a small backtracking matcher (`Re`, leftmost match,
  greedy, left alternative first) provides the expressions of the catalog.
* `goquery`, which extracts the `src` attributes of the `script` elements, is
  not part of the repository either: the list of script sources is an
  argument of the detection phase.
-/

namespace WhatWeb

/-! ## Strings -/

abbrev Str := List Char

/-- Go `strings.HasPrefix(s, p)`. -/
def hasPrefix : Str → Str → Bool
  | _, [] => true
  | [], _ :: _ => false
  | c :: cs, p :: ps => c == p && hasPrefix cs ps

/-- The loop of `strings.Split`: `skip` counts the characters of a separator
already recognised that remain to be passed over, `acc` is the current
segment, reversed. -/
def splitGo (sep : Str) : Str → Nat → Str → List Str
  | [], _, acc => [acc.reverse]
  | _ :: cs, k + 1, acc => splitGo sep cs k acc
  | c :: cs, 0, acc =>
    if hasPrefix (c :: cs) sep then acc.reverse :: splitGo sep cs (sep.length - 1) []
    else splitGo sep cs 0 (c :: acc)

/-- Go `strings.Split(s, sep)` for a non-empty separator: the segments of `s`
between the successive non-overlapping occurrences of `sep`. -/
def split (s sep : Str) : List Str := splitGo sep s 0 []

/-- The loop of `strings.Replace` with a non-empty `old`. -/
def replaceGo (old new : Str) : Str → Nat → Str
  | [], _ => []
  | _ :: cs, k + 1 => replaceGo old new cs k
  | c :: cs, 0 =>
    if hasPrefix (c :: cs) old then new ++ replaceGo old new cs (old.length - 1)
    else c :: replaceGo old new cs 0

/-- Go `strings.Replace(s, old, new, -1)`: every non-overlapping occurrence of
`old`, from the left, is replaced by `new`; an empty `old` matches before
every character and at the end. -/
def replaceAll (s old new : Str) : Str :=
  match old with
  | [] => new ++ s.flatMap (fun c => c :: new)
  | _ :: _ => replaceGo old new s 0

/-- Go `strings.ToLower`: every character of the string is mapped by
`unicode.ToLower`.  The package `unicode` is not part of the repository and
its mapping is the parameter `lowerRune`. -/
def toLower (lowerRune : Char → Char) (s : Str) : Str := s.map lowerRune

/-- Go `a > b` on strings: lexicographic comparison. -/
def strGt : Str → Str → Bool
  | [], _ => false
  | _ :: _, [] => true
  | a :: as, b :: bs => if b < a then true else if a < b then false else strGt as bs

/-- The text of `fmt.Sprintf("%d", n)` for a natural number. -/
def decimal (n : Nat) : Str := Nat.toDigits 10 n

/-! ## Maps -/

abbrev GoMap (β : Type) := List (Str × β)

/-- Map lookup `v, ok := m[k]`. -/
def mapGet {β : Type} : GoMap β → Str → Option β
  | [], _ => none
  | (k', v) :: m, k => if k' = k then some v else mapGet m k

/-- The test `_, ok := m[k]`. -/
def mapHas {β : Type} (m : GoMap β) (k : Str) : Bool := (mapGet m k).isSome

/-- Map assignment `m[k] = v`. -/
def mapSet {β : Type} : GoMap β → Str → β → GoMap β
  | [], k, v => [(k, v)]
  | (k', v') :: m, k, v => if k' = k then (k, v) :: m else (k', v') :: mapSet m k v

/-- Go `delete(m, k)`. -/
def mapDelete {β : Type} (m : GoMap β) (k : Str) : GoMap β :=
  m.filter (fun e => !decide (e.1 = k))

/-! ## Values decoded from JSON -/

/-- A value held in an `interface{}` field after `json.Unmarshal`. -/
inductive Val where
  | null : Val
  | str : Str → Val
  | arr : List Val → Val
  | obj : List (Str × Val) → Val
  | other : Val

/-- The test `v != nil`. -/
def Val.notNil : Val → Bool
  | .null => false
  | _ => true

/-- The type assertion `v.(string)`; `none` is the panic. -/
def Val.asString : Val → Option Str
  | .str s => some s
  | _ => none

/-! ## Regular expressions -/

/-- A compiled regular expression (`*regexp.Regexp`), given by its
`FindAllStringSubmatch(s, -1)`: the list of the successive matches, each the
list of the texts of group 0 (the whole match), group 1, ...; the empty list
(Go `nil`) when there is no match. -/
structure Regexp where
  findAllStringSubmatch : Str → List (List Str)

/-- Go `re.MatchString(s)` and `re.Match([]byte(s))`. -/
def Regexp.matchString (re : Regexp) (s : Str) : Bool :=
  !(re.findAllStringSubmatch s).isEmpty

/-- Syntax of the expressions used in examples, read under the flag `(?i)`. -/
inductive Re where
  | eps : Re
  | chr : Char → Re
  | cls : (Char → Bool) → Re
  | seq : Re → Re → Re
  | alt : Re → Re → Re
  | opt : Re → Re
  | plus : Re → Re
  | grp : Nat → Re → Re

/-- A state of the matcher: the text consumed since the start of the match
(reversed), the text left, the groups captured so far. -/
structure MState where
  taken : Str
  rest : Str
  caps : List (Nat × Str)

/-- Repetition of a matching step `step` one or more times, greedily; every
further repetition has to consume text, so `n` repetitions, `n` the length of
the text left, are all there are. -/
def plusIter (step : MState → List MState) : Nat → MState → List MState
  | 0, st => step st
  | n + 1, st =>
    (step st).flatMap (fun st1 =>
      (if st1.rest.length < st.rest.length then plusIter step n st1 else []) ++ [st1])

/-- All the ways `r` matches a prefix of the text left, in order of
preference (greedy repetition, left alternative first). -/
def Re.run : Re → MState → List MState
  | .eps, st => [st]
  | .chr c, st =>
    match st.rest with
    | x :: xs => if x.toLower = c.toLower then [{ st with taken := x :: st.taken, rest := xs }] else []
    | [] => []
  | .cls p, st =>
    match st.rest with
    | x :: xs => if p x then [{ st with taken := x :: st.taken, rest := xs }] else []
    | [] => []
  | .seq a b, st => (Re.run a st).flatMap (Re.run b)
  | .alt a b, st => Re.run a st ++ Re.run b st
  | .opt a, st => Re.run a st ++ [st]
  | .plus a, st => plusIter (Re.run a) st.rest.length st
  | .grp i a, st =>
    (Re.run a st).map (fun st1 =>
      { st1 with caps := (i, (st1.taken.take (st1.taken.length - st.taken.length)).reverse) :: st1.caps })

/-- The text of group `i` in a finished match (empty when the group did not
take part). -/
def capText (caps : List (Nat × Str)) (i : Nat) : Str :=
  match caps.find? (fun e => e.1 == i) with
  | some e => e.2
  | none => []

/-- The leftmost match of `r` in `s`: the preferred match at the first
position of `s` that has one. -/
def Re.firstMatch (r : Re) : Str → Option MState
  | [] => (Re.run r ⟨[], [], []⟩).head?
  | c :: cs =>
    match (Re.run r ⟨[], c :: cs, []⟩).head? with
    | some st => some st
    | none => Re.firstMatch r cs

/-- The successive non-overlapping matches of `r`, at most `n` of them; the
search goes on in the text after a match (none of the expressions used
matches the empty text, after which the search stops). -/
def Re.findAll (r : Re) (groups : Nat) : Nat → Str → List (List Str)
  | 0, _ => []
  | n + 1, s =>
    match Re.firstMatch r s with
    | none => []
    | some st =>
      (st.taken.reverse :: (List.range groups).map (fun i => capText st.caps (i + 1)))
        :: (if st.taken.isEmpty then [] else Re.findAll r groups n st.rest)

/-- The compiled form of `r`, an expression with `groups` capture groups. -/
def Re.toRegexp (r : Re) (groups : Nat) : Regexp :=
  ⟨fun s => Re.findAll r groups (s.length + 1) s⟩

/-! ## Version resolution -/

/-- A compiled pattern (`type pattern`); `regex` is `none` for Go `nil`. -/
structure pattern where
  str : Str
  regex : Option Regexp
  version : Str
  confidence : Str

/-- An entry of the result set (`type resultApp`). -/
structure resultApp where
  Name : Str
  Version : Str
  Categories : List Str
  excludes : Val
  implies : Val

/-- The backreference token of index `i`, a backslash followed by the decimal
text of `i`: the text matched by the expression `"\\\\" + i` that
`detectVersion` compiles. -/
def backref (i : Nat) : Str := '\\' :: decimal i

/-- Whether the expression `\\i\?([^:]+):(.*)$` matches at the start of `s`
and up to its end: the token `tok`, a question mark, one or more characters
other than a colon, a colon, and then no line feed up to the end of the
text (`.` does not match a line feed, `$` is the end of the text). -/
def ternaryAt (tok : Str) (s : Str) : Bool :=
  hasPrefix s (tok ++ ['?']) &&
    (let body := s.drop (tok.length + 1)
     let a := body.takeWhile (fun c => c != ':')
     let b := body.dropWhile (fun c => c != ':')
     !a.isEmpty && !b.isEmpty && !(b.drop 1).contains '\n')

/-- The result of `reg.FindAll([]byte(version), -1)` for the expression
`\\i\?([^:]+):(.*)$`: the successive non-overlapping matches.  A match runs
to the end of the text, so the leftmost one is the only one. -/
def findAllTernary (tok : Str) : Str → List Str
  | [] => []
  | c :: cs => if ternaryAt tok (c :: cs) then [c :: cs] else findAllTernary tok cs

/-- Whether a character can be part of a group name in a replacement
template (`extract` of package `regexp`: letters, digits, underscore), for
the ASCII characters; a letter or digit outside ASCII is not recognised. -/
def isNameChar (c : Char) : Bool := c.isAlphanum || c == '_'

/-- The expansion of the replacement text `repl` (`Regexp.expand`) for an
expression without capture groups whose match is `whole`: `$$` is a dollar
sign, `$0` and `${0}` are the match, any other `$name` or `${name}` is empty,
and a `$` that starts no name is kept. -/
def expand (whole : Str) : Nat → Str → Str
  | 0, _ => []
  | _, [] => []
  | n + 1, '$' :: t =>
    match t with
    | '$' :: t1 => '$' :: expand whole n t1
    | '{' :: t1 =>
      let name := t1.takeWhile isNameChar
      let after := t1.dropWhile isNameChar
      if name.isEmpty then '$' :: expand whole n t
      else match after with
        | '}' :: t2 => (if name = ['0'] then whole else []) ++ expand whole n t2
        | _ => '$' :: expand whole n t
    | _ =>
      let name := t.takeWhile isNameChar
      let after := t.dropWhile isNameChar
      if name.isEmpty then '$' :: expand whole n t
      else (if name = ['0'] then whole else []) ++ expand whole n after
  | n + 1, c :: t => c :: expand whole n t

/-- Go `reg2.ReplaceAllString(version, repl)` for the expression
`"\\\\" + i`, which matches the token `tok` literally: every
non-overlapping occurrence of the token is replaced by the expansion of
`repl`. -/
def replaceAllString (tok : Str) (version repl : Str) : Str :=
  replaceGo tok (expand tok (repl.length + 1) repl) version 0

/-- The body of the inner loop of `detectVersion` for the capture of index
`i` whose text is `m`. -/
def substCapture (version : Str) (i : Nat) (m : Str) : Str :=
  let ternary := findAllTernary (backref i) version
  let version :=
    if ternary.length == 3 then replaceAll version (ternary.getD 0 []) (ternary.getD 1 [])
    else version
  replaceAllString (backref i) version m

/-- The inner loop `for i, match := range slice`, from index `i` on. -/
def substSlice (version : Str) : Nat → List Str → Str
  | _, [] => version
  | i, m :: ms => substSlice (substCapture version i m) (i + 1) ms

/-- The outer loop `for _, slice := range slices`. -/
def substSlices (version : Str) : List (List Str) → Str
  | [] => version
  | sl :: sls => substSlices (substSlice version 0 sl) sls

/-- The function `detectVersion`.  The entry is passed by pointer in the
source and updated in place; here the updated entry is returned.  `none` is
the nil dereference of `pattrn.regex`. -/
def detectVersion (app : resultApp) (pattrn : pattern) (value : Str) : Option resultApp :=
  match pattrn.regex with
  | none => none
  | some re =>
    let slices := re.findAllStringSubmatch value
    if slices.isEmpty then some app
    else
      let version := substSlices pattrn.version slices
      let versions : List Str := if version != [] then [version] else []
      some (versions.foldl (fun a ver => if strGt ver a.Version then { a with Version := ver } else a) app)

/-! ## Pattern compilation -/

/-- A technology of the catalog (`type application`), with the fields the
engine reads. -/
structure application where
  Name : Str
  Version : Str := []
  Categories : List Str := []
  Cats : List Int := []
  Cookies : Val := .null
  Js : Val := .null
  Headers : Val := .null
  HTML : Val := .null
  Excludes : Val := .null
  Implies : Val := .null
  Scripts : Val := .null
  URL : Str := []
  Website : Str := []

abbrev PatternMap := GoMap (List pattern)

/-- The body of the loop `for i, item := range slice` of `parsePatterns0`,
which fills the pattern `p` from the segment `item` of index `i`. -/
def parseItem (compile : Str → Option Regexp) (p : pattern) (i : Nat) (item : Str) : pattern :=
  if item = [] then p
  else if i > 0 then
    let additional := split item [':']
    if additional.length > 1 then
      if additional.getD 0 [] = "version".toList then { p with version := additional.getD 1 [] }
      else { p with confidence := additional.getD 1 [] }
    else p
  else
    let first := replaceAll item ['\\', '/'] ['/']
    let second := replaceAll first ['\\', '\\'] ['\\']
    match compile ("(?i)".toList ++ replaceAll second ['/'] ['\\', '/']) with
    | some reg => { p with str := item, regex := some reg }
    | none => { p with str := item }

/-- The loop `for i, item := range slice` from index `i` on. -/
def parseItems (compile : Str → Option Regexp) (p : pattern) : Nat → List Str → pattern
  | _, [] => p
  | i, item :: items => parseItems compile (parseItem compile p i item) (i + 1) items

/-- The pattern built from one raw string: the string is split on
backslash-semicolon and the segments fill an empty pattern. -/
def parsePattern (compile : Str → Option Regexp) (str : Str) : pattern :=
  parseItems compile ⟨[], none, [], []⟩ 0 (split str ['\\', ';'])

/-- The first part of `parsePatterns0`: the raw strings by key.  The outer
`none` is the panic of a type assertion, the inner one the `default` case
(`return nil`). -/
def parsedStrings : Val → Option (Option (GoMap (List Str)))
  | .str ptrn => some (some [("main".toList, [ptrn])])
  | .obj ptrn =>
    (ptrn.foldlM (fun (parsed : GoMap (List Str)) (kv : Str × Val) =>
      (kv.2.asString).map (fun v => mapSet parsed kv.1 ((mapGet parsed kv.1).getD [] ++ [v]))) []).map some
  | .arr ptrn =>
    (ptrn.mapM Val.asString).map (fun slice => some [("main".toList, slice)])
  | _ => some none

/-- The second part of `parsePatterns0`: every raw string becomes a pattern,
appended to the list of its key. -/
def compileParsed (compile : Str → Option Regexp) (parsed : GoMap (List Str)) : PatternMap :=
  parsed.foldl (fun result kv =>
    kv.2.foldl (fun result str =>
      mapSet result kv.1 ((mapGet result kv.1).getD [] ++ [parsePattern compile str])) result) []

/-- The function `parsePatterns0`.  `none` is a panic; a nil result map is
the empty map. -/
def parsePatterns0 (compile : Str → Option Regexp) (patterns : Val) : Option PatternMap :=
  (parsedStrings patterns).map (fun r =>
    match r with
    | none => []
    | some parsed => compileParsed compile parsed)

/-! ## The pattern cache -/

abbrev Cache := GoMap (GoMap PatternMap)

/-- The function `getPatterns`: `cache[app.Name][typ]`, empty when absent. -/
def getPatterns (cache : Cache) (app : application) (typ : Str) : PatternMap :=
  (mapGet ((mapGet cache app.Name).getD []) typ).getD []

/-- The step `if v != nil { c[typ] = parsePatterns0(v) }` of `initPatterns`. -/
def initSignal (compile : Str → Option Regexp) (c : GoMap PatternMap) (typ : Str) (v : Val) :
    Option (GoMap PatternMap) :=
  if v.notNil then (parsePatterns0 compile v).map (fun m => mapSet c typ m) else some c

/-- The map `c` that `initPatterns` builds for a technology: its patterns by
signal type. -/
def signalPatterns (compile : Str → Option Regexp) (app : application) : Option (GoMap PatternMap) := do
  let url ← parsePatterns0 compile (.str app.URL)
  let c : GoMap PatternMap := [("url".toList, url)]
  let c ← initSignal compile c "html".toList app.HTML
  let c ← initSignal compile c "headers".toList app.Headers
  let c ← initSignal compile c "cookies".toList app.Cookies
  initSignal compile c "scripts".toList app.Scripts

/-- The function `initPatterns`, on the cache passed as state:
`cache[app.Name] = c`. -/
def initPatterns (compile : Str → Option Regexp) (cache : Cache) (app : application) : Option Cache :=
  (signalPatterns compile app).map (fun c => mapSet cache app.Name c)

/-- The cache after the loop of `Init` over the technologies `apps` (in the
order of the loop). -/
def initCache (compile : Str → Option Regexp) (apps : List application) : Option Cache :=
  apps.foldlM (initPatterns compile) []

/-! ## Detection -/

abbrev Detected := GoMap resultApp

/-- The literal `&resultApp{app.Name, app.Version, app.Categories,
app.Excludes, app.Implies}`. -/
def newResult (app : application) : resultApp :=
  ⟨app.Name, app.Version, app.Categories, app.Excludes, app.Implies⟩

/-- The block, found in each of the five analyzers, that runs when a regex
matched `value`: when the technology has no entry yet, one is created and
its version is resolved. -/
def recordMatch (app : application) (pattrn : pattern) (value : Str) (det : Detected) :
    Option Detected :=
  if mapHas det app.Name then some det
  else (detectVersion (newResult app) pattrn value).map (fun resApp => mapSet det resApp.Name resApp)

/-- The test `pattrn.regex != nil && pattrn.regex.MatchString(value)`
followed by the block `recordMatch`. -/
def matchValue (app : application) (pattrn : pattern) (det : Detected) (value : Str) :
    Option Detected :=
  match pattrn.regex with
  | none => some det
  | some re => if re.matchString value then recordMatch app pattrn value det else some det

/-- The function `analyzeURL`. -/
def analyzeURL (cache : Cache) (app : application) (url : Str) (det : Detected) : Option Detected :=
  (getPatterns cache app "url".toList).foldlM (fun det kv =>
    kv.2.foldlM (fun det pattrn => matchValue app pattrn det url) det) det

/-- The function `analyzeHTML`. -/
def analyzeHTML (cache : Cache) (app : application) (html : Str) (det : Detected) : Option Detected :=
  (getPatterns cache app "html".toList).foldlM (fun det kv =>
    kv.2.foldlM (fun det pattrn => matchValue app pattrn det html) det) det

/-- The function `analyzeScripts`. -/
def analyzeScripts (cache : Cache) (app : application) (scripts : List Str) (det : Detected) :
    Option Detected :=
  (getPatterns cache app "scripts".toList).foldlM (fun det kv =>
    kv.2.foldlM (fun det pattrn =>
      match pattrn.regex with
      | none => some det
      | some _ => scripts.foldlM (matchValue app pattrn) det) det) det

/-- The body of the loop over the patterns of one header name in
`analyzeHeaders`. -/
def headerStep (app : application) (headers : GoMap (List Str)) (name : Str) (det : Detected)
    (pattrn : pattern) : Option Detected :=
  match mapGet headers name with
  | none => some det
  | some headersSlice =>
    let det := if pattrn.regex.isNone then mapSet det app.Name (newResult app) else det
    headersSlice.foldlM (matchValue app pattrn) det

/-- The function `analyzeHeaders`. -/
def analyzeHeaders (lowerRune : Char → Char) (cache : Cache) (app : application) (headers : GoMap (List Str))
    (det : Detected) : Option Detected :=
  (getPatterns cache app "headers".toList).foldlM (fun det kv =>
    kv.2.foldlM (headerStep app headers (toLower lowerRune kv.1)) det) det

/-- The body of the loop over the patterns of one cookie name in
`analyzeCookies`. -/
def cookieStep (app : application) (cookies : GoMap Str) (name : Str) (det : Detected)
    (pattrn : pattern) : Option Detected :=
  match mapGet cookies name with
  | none => some det
  | some cookie =>
    let det :=
      if pattrn.regex.isNone then
        (if mapHas det app.Name then det else mapSet det app.Name (newResult app))
      else det
    matchValue app pattrn det cookie

/-- The function `analyzeCookies`. -/
def analyzeCookies (lowerRune : Char → Char) (cache : Cache) (app : application) (cookies : GoMap Str) (det : Detected) :
    Option Detected :=
  (getPatterns cache app "cookies".toList).foldlM (fun det kv =>
    kv.2.foldlM (cookieStep app cookies (toLower lowerRune kv.1)) det) det

/-- The page handed to `Analyze` (`type HttpData`). -/
structure HttpData where
  Url : Str
  Headers : GoMap (List Str)
  Html : Str

/-- The cookies `Analyze` derives from the `set-cookie` headers: every value
is split on `;`, every part on `=`, and a part with at least two pieces gives
the entry piece 0 to piece 1. -/
def deriveCookies (headers : GoMap (List Str)) : GoMap Str :=
  ((mapGet headers "set-cookie".toList).getD []).foldl (fun cookies cookie =>
    (split cookie [';']).foldl (fun cookies keyValueString =>
      let keyValueSlice := split keyValueString ['=']
      if keyValueSlice.length > 1 then
        mapSet cookies (keyValueSlice.getD 0 []) (keyValueSlice.getD 1 [])
      else cookies) cookies) []

/-- The body of the loop `for _, app := range wapp.Apps` of `Analyze`. -/
def analyzeApp (lowerRune : Char → Char) (cache : Cache) (httpdata : HttpData) (scripts : List Str) (cookies : GoMap Str)
    (det : Detected) (app : application) : Option Detected :=
  (analyzeURL cache app httpdata.Url det).bind fun det =>
  (if app.HTML.notNil then analyzeHTML cache app httpdata.Html det else some det).bind fun det =>
  (if app.Headers.notNil then analyzeHeaders lowerRune cache app httpdata.Headers det
    else some det).bind fun det =>
  (if app.Cookies.notNil then analyzeCookies lowerRune cache app cookies det else some det).bind fun det =>
  if app.Scripts.notNil then analyzeScripts cache app scripts det else some det

/-- The detection phase of `Analyze`: the loop over the technologies of the
catalog, from the empty result set.  `scripts` are the `src` attributes that
goquery finds in the page. -/
def detect (lowerRune : Char → Char) (cache : Cache) (apps : GoMap application) (httpdata : HttpData) (scripts : List Str) :
    Option Detected :=
  apps.foldlM (fun det kv => analyzeApp lowerRune cache httpdata scripts (deriveCookies httpdata.Headers) det kv.2) []

/-! ## Exclusion and implication -/

/-- The function `resolveExcludes`. -/
def resolveExcludes (det : Detected) : Val → Option Detected
  | .str excls => some (mapDelete det excls)
  | .arr excls => excls.foldlM (fun det v => (v.asString).map (fun s => mapDelete det s)) det
  | _ => some det

/-- The block of `resolveImplies` for one implied name. -/
def implyName (apps : GoMap application) (det : Detected) (impls : Str) : Detected :=
  match mapGet apps impls with
  | none => det
  | some app => if mapHas det app.Name then det else mapSet det app.Name (newResult app)

/-- The function `resolveImplies`. -/
def resolveImplies (apps : GoMap application) (det : Detected) : Val → Option Detected
  | .str impls => some (implyName apps det impls)
  | .arr impls => impls.foldlM (fun det v => (v.asString).map (fun s => implyName apps det s)) det
  | _ => some det

/-- The body of the second loop of `Analyze`, for the entry of name `name`.
An entry removed before the loop reaches it is not visited. -/
def resolveStep (apps : GoMap application) (det : Detected) (name : Str) : Option Detected :=
  match mapGet det name with
  | none => some det
  | some app =>
    (if app.excludes.notNil then resolveExcludes det app.excludes else some det).bind fun det =>
    if app.implies.notNil then resolveImplies apps det app.implies else some det

/-- The second loop of `Analyze`, `for _, app := range detectedApplications`,
visiting the names in the order `order`.  The loop changes the map it ranges
over: Go visits every entry that is not removed before its turn, once, and
may or may not visit an entry created during the loop. -/
def resolvePass (apps : GoMap application) (det : Detected) (order : List Str) : Option Detected :=
  order.foldlM (resolveStep apps) det

/-! ## Expressions and catalogs of the examples -/

/-- The expression that matches the text `s` literally. -/
def Re.lit : Str → Re
  | [] => .eps
  | [c] => .chr c
  | c :: cs => .seq (.chr c) (Re.lit cs)

/-- The expression `v(\d)`. -/
def reVDigit : Re := .seq (.chr 'v') (.grp 1 (.cls Char.isDigit))

/-- The expression `edition-(pro|free)`. -/
def reEdition : Re :=
  .seq (Re.lit "edition-".toList) (.grp 1 (.alt (Re.lit "pro".toList) (Re.lit "free".toList)))

/-- The expression `foo`. -/
def reFoo : Re := Re.lit "foo".toList

/-- The expression `ver=(.+)`. -/
def reVerAny : Re := .seq (Re.lit "ver=".toList) (.grp 1 (.plus (.cls (fun c => c != '\n'))))

/-- The expression `ver=(.+)-(\d)`. -/
def reVerTwo : Re :=
  .seq (Re.lit "ver=".toList) (.seq (.grp 1 (.plus (.cls (fun c => c != '\n'))))
    (.seq (.chr '-') (.grp 2 (.cls Char.isDigit))))

/-- The expression `jquery(?:\.min)?\.js(?:\?ver(?:sion)?=([\d.]+))?`. -/
def reJQuery : Re :=
  .seq (Re.lit "jquery".toList) (.seq (.opt (Re.lit ".min".toList)) (.seq (Re.lit ".js".toList)
    (.opt (.seq (Re.lit "?ver".toList) (.seq (.opt (Re.lit "sion".toList))
      (.seq (.chr '=') (.grp 1 (.plus (.cls (fun c => c.isDigit || c == '.'))))))))))

/-- The part of `regexp.Compile` the examples use: the expressions above,
each under the prefix `(?i)` that `parsePatterns0` puts before it; no other
text is compiled. -/
def exampleCompile (src : Str) : Option Regexp :=
  if src = "(?i)v(\\d)".toList then some (reVDigit.toRegexp 1)
  else if src = "(?i)edition-(pro|free)".toList then some (reEdition.toRegexp 1)
  else if src = "(?i)foo".toList then some (reFoo.toRegexp 0)
  else if src = "(?i)ver=(.+)".toList then some (reVerAny.toRegexp 1)
  else if src = "(?i)ver=(.+)-(\\d)".toList then some (reVerTwo.toRegexp 2)
  else if src = "(?i)jquery(?:\\.min)?\\.js(?:\\?ver(?:sion)?=([\\d.]+))?".toList then
    some (reJQuery.toRegexp 1)
  else none

/-- The names and versions of a result set. -/
def versionsOf (det : Detected) : List (Str × Str) := det.map (fun e => (e.1, e.2.Version))

/-- The version of the entry that `detectVersion` returns for an entry of
declared version `declared`, a pattern of expression `re` and version
template `template`, and the matched text `value`. -/
def resolvedVersion (declared : Str) (re : Regexp) (template : Str) (value : Str) : Option Str :=
  (detectVersion ⟨"T".toList, declared, [], .null, .null⟩ ⟨[], some re, template, []⟩ value).map
    (fun r => r.Version)

/-- The result of the detection phase for the catalog of the technologies
`apps`, as names and versions; `none` is a panic.  The names of the examples
are ASCII texts, on which `unicode.ToLower` is `Char.toLower`. -/
def detectExample (apps : List application) (httpdata : HttpData) (scripts : List Str) :
    Option (List (Str × Str)) :=
  (initCache exampleCompile apps).bind (fun cache =>
    (detect Char.toLower cache (apps.map (fun a => (a.Name, a))) httpdata scripts).map versionsOf)

/-- A technology with a url pattern that extracts a version and a
presence-only pattern for the header `X-Gen`. -/
def techUrlHeader : application :=
  { Name := "T".toList, URL := "v(\\d)\\;version:\\1".toList,
    Headers := .obj [("X-Gen".toList, .str [])] }

/-- A technology whose only pattern is a presence-only pattern for the cookie
`PHPSESSID`. -/
def techCookie : application :=
  { Name := "PHP".toList, Cookies := .obj [("PHPSESSID".toList, .str [])] }

/-- The jQuery signature of the specification. -/
def techJQuery : application :=
  { Name := "jQuery".toList,
    Scripts := .str "jquery(?:\\.min)?\\.js(?:\\?ver(?:sion)?=([\\d.]+))?\\;version:\\1".toList }

/-- A technology whose only pattern is the scripts pattern `ver=(.+)` with
the version template `\1`. -/
def techVer : application :=
  { Name := "V".toList, Scripts := .str "ver=(.+)\\;version:\\1".toList }

/-- The cache that `Init` builds for the technologies `apps`, with the
expressions of the examples. -/
def cacheOf (apps : List application) : Cache := (initCache exampleCompile apps).getD []

/-- A technology whose only pattern is a presence-only pattern for the
header `X-Powered-By`. -/
def techServer : application :=
  { Name := "Srv".toList, Headers := .obj [("X-Powered-By".toList, .str [])] }

/-- An entry of declared version `2.0`. -/
def entryT : resultApp := ⟨"T".toList, "2.0".toList, [], .null, .null⟩

/-- The catalog in which `A` excludes `B`. -/
def catalogExcl : GoMap application :=
  [("A".toList, { Name := "A".toList, Excludes := .arr [.str "B".toList] }),
   ("B".toList, { Name := "B".toList })]

/-- The technology `WordPress`, which implies `PHP`. -/
def techWordPress : application := { Name := "WordPress".toList, Implies := .str "PHP".toList }

/-- The technology `PHP`, of declared version `8`. -/
def techPHP : application :=
  { Name := "PHP".toList, Version := "8".toList, Categories := ["Languages".toList] }

/-- The catalog of `WordPress` and `PHP`. -/
def catalogImpl : GoMap application :=
  [("WordPress".toList, techWordPress), ("PHP".toList, techPHP)]

/-- The result set in which every technology of `apps` has its entry. -/
def allMatched (apps : GoMap application) : Detected := apps.map (fun kv => (kv.1, newResult kv.2))

/-- A technology whose only pattern is the scripts pattern `ver=(.+)-(\d)`
with the version template `\1`. -/
def techVerTwo : application :=
  { Name := "W".toList, Scripts := .str "ver=(.+)-(\\d)\\;version:\\1".toList }

/-! ## Predicates used in the statements -/

/-- The entries of `det'` are those of `det` except possibly under `name`,
and an entry under `name` is kept. -/
def Frame (name : Str) (det det' : Detected) : Prop :=
  (∀ k, k ≠ name → mapGet det' k = mapGet det k) ∧
    (∀ r, mapGet det name = some r → (mapGet det' name).isSome = true)

/-- The names a value of `excludes` or `implies` declares: the name itself
for a string, the strings of a sequence. -/
def relNames : Val → List Str
  | .str s => [s]
  | .arr l => l.filterMap Val.asString
  | _ => []

/-- A value of `excludes` or `implies` is well formed when, being a
sequence, it holds strings only (absent, a name, or a sequence of names). -/
def wfRel : Val → Bool
  | .arr l => l.all (fun v => (v.asString).isSome)
  | _ => true

/-- Every entry of the result set stems from a technology of the catalog:
it carries the `excludes` and `implies` of that technology. -/
def FromCatalog (apps : GoMap application) (det : Detected) : Prop :=
  ∀ name r, mapGet det name = some r →
    ∃ kv ∈ apps, r.excludes = kv.2.Excludes ∧ r.implies = kv.2.Implies

/-- What `resolveImplies` does to the entry under `k`, for the implied names
`names`: it is kept, or there was none and the technology of key `k`, one of
the implied names, got its entry. -/
def ImpliedAt (apps : GoMap application) (names : List Str) (det det' : Detected) (k : Str) : Prop :=
  mapGet det' k = mapGet det k ∨
    (mapGet det k = none ∧ k ∈ names ∧ ∃ a, mapGet apps k = some a ∧ mapGet det' k = some (newResult a))

/-- A category of the catalog (`type category`). -/
structure category where
  Name : Str
  Priority : Int := 0

/-- The text of `fmt.Sprintf("%d", n)` for an integer. -/
def decimalInt : Int → Str
  | .ofNat k => decimal k
  | .negSucc k => '-' :: decimal (k + 1)

/-- The function `parseCategories`: the technology with the names of its
known categories appended. -/
def parseCategories (app : application) (categories : GoMap category) : application :=
  app.Cats.foldl (fun app cat =>
    match mapGet categories (decimalInt cat) with
    | some catData => { app with Categories := app.Categories ++ [catData.Name] }
    | none => app) app

/-- The greater of two strings in the lexicographic order. -/
def strMax (a b : Str) : Str := if strGt a b then a else b

/-- An entry of declared version `9`. -/
def entryNine : resultApp := ⟨"T".toList, "9".toList, [], .null, .null⟩

/-- The text that the claim on pattern compilation gives for the source of
the regex of a match expression `E`: `(?i)`, then `E` in which first every
backslash-slash is replaced by a slash, then every double backslash by a
backslash, then every slash by backslash-slash. -/
def regexSource (E : Str) : Str :=
  "(?i)".toList ++
    replaceAll (replaceAll (replaceAll E ['\\', '/'] ['/']) ['\\', '\\'] ['\\']) ['/'] ['\\', '/']

/-- Whether every slash of `s` comes right after a backslash, `prev` being
the character before `s`. -/
def slashesEscaped (prev : Char) : Str → Bool
  | [] => true
  | c :: cs => (c != '/' || prev == '\\') && slashesEscaped c cs

/-- The separator of the segments of a raw pattern, backslash-semicolon. -/
def segmentSep : Str := ['\\', ';']

/-- The shape of a map of compiled patterns: for every key, the raw text,
whether there is a regex, the version template and the confidence of each
of its patterns. -/
def patternShapes (m : PatternMap) : List (Str × List (Str × Bool × Str × Str)) :=
  m.map (fun kv => (kv.1, kv.2.map (fun p => (p.str, p.regex.isSome, p.version, p.confidence))))

/-- The cookie that a `;`-separated segment of a `set-cookie` value gives:
none without `=`; otherwise the key is the text before the first `=` and the
value the text after it, up to the next `=` or to the end. -/
def cookiePair (seg : Str) : Option (Str × Str) :=
  if seg.contains '=' then
    some (seg.takeWhile (fun c => c != '='),
      ((seg.dropWhile (fun c => c != '=')).drop 1).takeWhile (fun c => c != '='))
  else none

/-- The cookies of all the segments of all the `set-cookie` values, in
order. -/
def cookiePairs (headers : GoMap (List Str)) : List (Str × Str) :=
  ((mapGet headers "set-cookie".toList).getD []).flatMap
    (fun cookie => (split cookie [';']).filterMap cookiePair)

/-- The value of the last pair of key `k`. -/
def lastValue : List (Str × Str) → Str → Option Str
  | [], _ => none
  | e :: ps, k =>
    match lastValue ps k with
    | some v => some v
    | none => if e.1 = k then some e.2 else none

/-- No entry of the result set declares an implication, and the `excludes`
and `implies` of every entry are well formed. -/
abbrev ExcludesOnly (det : Detected) : Prop :=
  ∀ e ∈ det, wfRel e.2.excludes = true ∧ wfRel e.2.implies = true ∧ relNames e.2.implies = []

/-- The order visits every entry of the result set. -/
abbrev VisitsAll (det : Detected) (order : List Str) : Prop := ∀ e ∈ det, e.1 ∈ order

/-- The names of a result set. -/
def namesOf (det : Detected) : List Str := det.map (fun e => e.1)

/-- The catalog in which `A` excludes `B` and `B` implies `C`. -/
def catalogChain : GoMap application :=
  [("A".toList, { Name := "A".toList, Excludes := .str "B".toList }),
   ("B".toList, { Name := "B".toList, Implies := .str "C".toList }),
   ("C".toList, { Name := "C".toList })]

/-- A technology whose url pattern is the signature
`edition-(pro|free)\;version:\1?Pro:Free`. -/
def techEdition : application :=
  { Name := "Ed".toList, URL := "edition-(pro|free)\\;version:\\1?Pro:Free".toList }

/-- A category table with the ids `1`, `11` and `-2`. -/
def exampleCategories : GoMap category :=
  [("1".toList, { Name := "CMS".toList }), ("11".toList, { Name := "Blogs".toList }),
   ("-2".toList, { Name := "Odd".toList })]

/-- A technology with one category name and the category ids `11`, `7`,
`1`, `11`, `-2`. -/
def techCats : application :=
  { Name := "T".toList, Categories := ["Base".toList], Cats := [11, 7, 1, 11, -2] }

/-- A technology whose only pattern is a headers pattern for `Server` whose
expression, `(`, does not compile. -/
def techBadHeader : application :=
  { Name := "Bad".toList, Headers := .obj [("Server".toList, .str "(".toList)] }

/-- Whether the text `t` that follows a `$` in a replacement text starts no
reference, so that the `$` is kept as it is: `t` is empty, or it starts with
an ASCII character that is not a letter, a digit, an underscore or a `$`
and, when that character is `{`, the letters, digits and underscores after
it end at the end of the text or at an ASCII character, which is not `}`
unless there are none of them. -/
def noReference : Str → Bool
  | [] => true
  | c :: t =>
    decide (c.toNat < 128) && !isNameChar c && c != '$' &&
      (c != '{' ||
        (match t.dropWhile isNameChar with
         | [] => true
         | d :: _ => decide (d.toNat < 128) && (d != '}' || (t.takeWhile isNameChar).isEmpty)))

/-- Whether no `$` of the text starts a reference. -/
def dollarsInert : Str → Bool
  | [] => true
  | c :: t => (c != '$' || noReference t) && dollarsInert t

/-- Whether an entry of the result set declares the exclusion of `k`. -/
def excludedIn (det : Detected) (k : Str) : Bool :=
  det.any (fun e => decide (k ∈ relNames e.2.excludes))

/-- Whether an entry of the result set declares the implication of `k`. -/
def impliedIn (det : Detected) (k : Str) : Bool :=
  det.any (fun e => decide (k ∈ relNames e.2.implies))

/-- The entry expected under `k` after the exclude/imply pass over `det`:
none when an entry of `det` excludes `k`; otherwise the entry of `det`, if
there is one; otherwise the entry made from the technology `k` of the
catalog, if an entry of `det` implies `k`. -/
def passResult (apps : GoMap application) (det : Detected) (k : Str) : Option resultApp :=
  if excludedIn det k then none
  else
    match mapGet det k with
    | some r => some r
    | none => if impliedIn det k then (mapGet apps k).map newResult else none

/-- The `excludes` and `implies` of every entry are names or sequences of
names. -/
abbrev WellFormed (det : Detected) : Prop :=
  ∀ e ∈ det, wfRel e.2.excludes = true ∧ wfRel e.2.implies = true

/-- An entry that an entry of the result set excludes declares neither
exclusions nor implications. -/
abbrev ExcludedAreInert (det : Detected) : Prop :=
  ∀ e ∈ det, excludedIn det e.1 = true → relNames e.2.excludes = [] ∧ relNames e.2.implies = []

/-- A technology of the catalog that an entry of the result set implies is
excluded by no entry and, when it has no entry itself, declares neither
exclusions nor implications. -/
abbrev ImpliedAreFree (apps : GoMap application) (det : Detected) : Prop :=
  ∀ kv ∈ apps, impliedIn det kv.1 = true →
    excludedIn det kv.1 = false ∧
      (mapHas det kv.1 = false →
        (wfRel kv.2.Excludes = true ∧ wfRel kv.2.Implies = true) ∧
          relNames kv.2.Excludes = [] ∧ relNames kv.2.Implies = [])

/-- The catalog in which `A` and `B` exclude each other. -/
def catalogMutual : GoMap application :=
  [("A".toList, { Name := "A".toList, Excludes := .str "B".toList }),
   ("B".toList, { Name := "B".toList, Excludes := .str "A".toList })]

/-- The catalog in which `A` implies `C` and `D` excludes `C`. -/
def catalogImpliedExcluded : GoMap application :=
  [("A".toList, { Name := "A".toList, Implies := .str "C".toList }),
   ("D".toList, { Name := "D".toList, Excludes := .str "C".toList }),
   ("C".toList, { Name := "C".toList })]

/-- The catalog in which `A` implies `C` and `C` excludes `D`. -/
def catalogImpliedExcludes : GoMap application :=
  [("A".toList, { Name := "A".toList, Implies := .str "C".toList }),
   ("D".toList, { Name := "D".toList }),
   ("C".toList, { Name := "C".toList, Excludes := .str "D".toList })]

/-- The catalog in which `A` implies `C` and `C` implies `F`. -/
def catalogImpliedImplies : GoMap application :=
  [("A".toList, { Name := "A".toList, Implies := .str "C".toList }),
   ("C".toList, { Name := "C".toList, Implies := .str "F".toList }),
   ("F".toList, { Name := "F".toList })]

/-- The catalog in which `A` excludes `B` and the `excludes` of `B` is a
sequence that holds a number. -/
def catalogIllFormed : GoMap application :=
  [("A".toList, { Name := "A".toList, Excludes := .str "B".toList }),
   ("B".toList, { Name := "B".toList, Excludes := .arr [.other] })]

/-- The catalog in which `A` and `B` imply `C`, and `D` excludes `E`. -/
def catalogMixed : GoMap application :=
  [("A".toList, { Name := "A".toList, Implies := .str "C".toList }),
   ("B".toList, { Name := "B".toList, Implies := .arr [.str "C".toList] }),
   ("D".toList, { Name := "D".toList, Excludes := .arr [.str "E".toList] }),
   ("E".toList, { Name := "E".toList }),
   ("C".toList, { Name := "C".toList, Version := "3".toList })]

/-! ## Theorems -/

/-! ### Version resolution: lemmas -/

theorem hasPrefix_iff (s p : Str) : hasPrefix s p = true ↔ p <+: s := by
  induction s generalizing p with
  | nil => cases p <;> simp [hasPrefix]
  | cons c cs ih =>
    cases p with
    | nil => simp [hasPrefix]
    | cons q qs =>
      rw [hasPrefix, List.cons_prefix_cons, Bool.and_eq_true, ih]
      simp only [beq_iff_eq]
      constructor
      · rintro ⟨h1, h2⟩; exact ⟨h1.symm, h2⟩
      · rintro ⟨h1, h2⟩; exact ⟨h1.symm, h2⟩

theorem findAllTernary_length (tok s : Str) : (findAllTernary tok s).length ≤ 1 := by
  induction s with
  | nil => simp [findAllTernary]
  | cons c cs ih =>
    unfold findAllTernary
    split <;> simp [ih]

theorem substCapture_eq (version : Str) (i : Nat) (m : Str) :
    substCapture version i m = replaceAllString (backref i) version m := by
  have h := findAllTernary_length (backref i) version
  unfold substCapture
  have h3 : ((findAllTernary (backref i) version).length == 3) = false := by
    simp; omega
  simp [h3]

theorem replaceGo_of_not_infix (old new s : Str) (h : ¬ old <:+: s) :
    replaceGo old new s 0 = s := by
  induction s with
  | nil => simp [replaceGo]
  | cons c cs ih =>
    have hp : hasPrefix (c :: cs) old = false := by
      cases hh : hasPrefix (c :: cs) old with
      | false => rfl
      | true => exact absurd ((hasPrefix_iff _ _).1 hh).isInfix h
    have hcs : ¬ old <:+: cs := fun hi => h (hi.trans (List.suffix_cons c cs).isInfix)
    simp [replaceGo, hp, ih hcs]

theorem substCapture_of_not_infix (version : Str) (i : Nat) (m : Str)
    (h : ¬ backref i <:+: version) : substCapture version i m = version := by
  rw [substCapture_eq]; exact replaceGo_of_not_infix _ _ _ h



theorem substSlice_of_no_token (t : Str) (sl : List Str) (i : Nat)
    (h : ∀ j, i ≤ j → j < i + sl.length → ¬ backref j <:+: t) : substSlice t i sl = t := by
  induction sl generalizing i with
  | nil => rfl
  | cons m ms ih =>
    have h0 : substCapture t i m = t :=
      substCapture_of_not_infix t i m (h i (Nat.le_refl i) (by simp))
    rw [substSlice, h0]
    apply ih
    intro j hj1 hj2
    exact h j (by omega) (by simp; omega)

theorem substSlices_of_no_token (t : Str) (slices : List (List Str))
    (h : ∀ sl ∈ slices, ∀ j, j < sl.length → ¬ backref j <:+: t) : substSlices t slices = t := by
  induction slices with
  | nil => rfl
  | cons sl sls ih =>
    have h0 : substSlice t 0 sl = t :=
      substSlice_of_no_token t sl 0 (fun j _ hj => h sl (by simp) j (by omega))
    rw [substSlices, h0]
    exact ih (fun sl' hsl' => h sl' (List.mem_cons_of_mem _ hsl'))

theorem detectVersion_of_resolved (app : resultApp) (p : pattern) (re : Regexp) (value : Str)
    (hre : p.regex = some re) (hm : re.findAllStringSubmatch value ≠ []) :
    detectVersion app p value =
      some (if substSlices p.version (re.findAllStringSubmatch value) ≠ [] ∧
              strGt (substSlices p.version (re.findAllStringSubmatch value)) app.Version = true
            then { app with Version := substSlices p.version (re.findAllStringSubmatch value) }
            else app) := by
  unfold detectVersion
  rw [hre]
  have he : (re.findAllStringSubmatch value).isEmpty = false := by
    cases h : re.findAllStringSubmatch value with
    | nil => exact absurd h hm
    | cons a b => rfl
  simp only [he]
  by_cases hv : substSlices p.version (re.findAllStringSubmatch value) = []
  · simp [hv]
  · by_cases hg : strGt (substSlices p.version (re.findAllStringSubmatch value)) app.Version = true
    · simp [hv, hg]
    · simp [hv, hg]

theorem detectVersion_no_match (app : resultApp) (p : pattern) (re : Regexp) (value : Str)
    (hre : p.regex = some re) (hm : re.findAllStringSubmatch value = []) :
    detectVersion app p value = some app := by
  unfold detectVersion
  rw [hre]
  simp [hm]

theorem expand_of_no_dollar (whole m : Str) (n : Nat) (hn : m.length < n) (h : '$' ∉ m) :
    expand whole n m = m := by
  induction m generalizing n with
  | nil => cases n <;> simp [expand]
  | cons c cs ih =>
    cases n with
    | zero => simp at hn
    | succ k =>
      have hc : c ≠ '$' := fun e => h (by simp [e])
      have hcs : '$' ∉ cs := fun e => h (List.mem_cons_of_mem _ e)
      have hk : cs.length < k := by simp at hn; omega
      unfold expand
      split
      · simp_all
      · simp_all
      · simp_all
      · rename_i n' c' t' _ hk' heq
        simp at heq hk'
        obtain ⟨h1, h2⟩ := heq
        subst h1 h2 hk'
        rw [ih _ hk hcs]


theorem not_infix_of_head_not_mem (c : Char) (tok s : Str) (h : c ∉ s) : ¬ (c :: tok) <:+: s := by
  intro hi
  exact h (hi.subset (by simp))

theorem decimal_one : decimal 1 = ['1'] := by decide
theorem decimal_zero : decimal 0 = ['0'] := by decide


/-! ### Maps and loops: lemmas -/

theorem mapGet_mapSet {β : Type} (m : GoMap β) (k k' : Str) (v : β) :
    mapGet (mapSet m k v) k' = if k = k' then some v else mapGet m k' := by
  induction m with
  | nil => simp [mapSet, mapGet]
  | cons e m ih =>
    obtain ⟨a, b⟩ := e
    by_cases h : a = k
    · subst h
      by_cases h' : a = k' <;> simp [mapSet, mapGet, h']
    · by_cases h' : a = k'
      · subst h'
        have : ¬ k = a := fun e => h e.symm
        simp [mapSet, mapGet, h, this]
      · simp [mapSet, mapGet, h, h', ih]

theorem mapGet_mapDelete {β : Type} (m : GoMap β) (k k' : Str) :
    mapGet (mapDelete m k) k' = if k = k' then none else mapGet m k' := by
  induction m with
  | nil => simp [mapDelete, mapGet]
  | cons e m ih =>
    obtain ⟨a, b⟩ := e
    have ih' : mapGet (List.filter (fun e => !decide (e.1 = k)) m) k' =
        if k = k' then none else mapGet m k' := ih
    by_cases h : a = k
    · subst h
      by_cases h' : a = k'
      · subst h'
        simpa [mapDelete, mapGet, List.filter] using ih'
      · simpa [mapDelete, mapGet, h', List.filter] using ih'
    · by_cases h' : a = k'
      · subst h'
        have : ¬ k = a := fun e => h e.symm
        simp [mapDelete, mapGet, h, this, List.filter]
      · simp [mapDelete, mapGet, h, h', List.filter, ih']

theorem foldlM_rel {α σ : Type} (R : σ → σ → Prop) (hrefl : ∀ s, R s s)
    (htrans : ∀ a b c, R a b → R b c → R a c) (f : σ → α → Option σ) (l : List α)
    (h : ∀ s x, x ∈ l → ∃ s', f s x = some s' ∧ R s s') (s : σ) :
    ∃ s', l.foldlM f s = some s' ∧ R s s' := by
  induction l generalizing s with
  | nil => exact ⟨s, rfl, hrefl s⟩
  | cons x xs ih =>
    obtain ⟨s1, h1, r1⟩ := h s x (by simp)
    obtain ⟨s2, h2, r2⟩ := ih (fun s y hy => h s y (List.mem_cons_of_mem _ hy)) s1
    refine ⟨s2, ?_, htrans _ _ _ r1 r2⟩
    simp [List.foldlM, h1, h2]

theorem Frame.refl (name : Str) (det : Detected) : Frame name det det :=
  ⟨fun _ _ => rfl, fun r h => by simp [h]⟩

theorem Frame.trans {name : Str} {a b c : Detected} (h1 : Frame name a b) (h2 : Frame name b c) :
    Frame name a c := by
  refine ⟨fun k hk => (h2.1 k hk).trans (h1.1 k hk), fun r hr => ?_⟩
  have := h1.2 r hr
  obtain ⟨r', hr'⟩ := Option.isSome_iff_exists.1 this
  exact h2.2 r' hr'

theorem detectVersion_name (app r : resultApp) (p : pattern) (value : Str)
    (h : detectVersion app p value = some r) : r.Name = app.Name := by
  unfold detectVersion at h
  cases hre : p.regex with
  | none => simp [hre] at h
  | some re =>
    simp only [hre] at h
    split at h
    · simp at h; rw [← h]
    · simp only [Option.some.injEq] at h
      rw [← h]
      split
      · simp [List.foldl]
        split <;> rfl
      · simp [List.foldl]

theorem detectVersion_isSome (app : resultApp) (p : pattern) (re : Regexp) (value : Str)
    (hre : p.regex = some re) : ∃ r, detectVersion app p value = some r := by
  by_cases hm : re.findAllStringSubmatch value = []
  · exact ⟨_, detectVersion_no_match app p re value hre hm⟩
  · exact ⟨_, detectVersion_of_resolved app p re value hre hm⟩

theorem recordMatch_frame (app : application) (p : pattern) (re : Regexp) (value : Str)
    (det : Detected) (hre : p.regex = some re) :
    ∃ det', recordMatch app p value det = some det' ∧ Frame app.Name det det' := by
  unfold recordMatch
  by_cases hh : mapHas det app.Name = true
  · simp [hh]; exact Frame.refl _ _
  · obtain ⟨r, hr⟩ := detectVersion_isSome (newResult app) p re value hre
    have hn : r.Name = app.Name := detectVersion_name _ _ _ _ hr
    simp [hh, hr, hn]
    refine ⟨fun k hk => ?_, fun r' hr' => ?_⟩
    · rw [mapGet_mapSet]; simp [Ne.symm hk]
    · simp [mapHas, hr'] at hh

theorem matchValue_frame (app : application) (p : pattern) (det : Detected) (value : Str) :
    ∃ det', matchValue app p det value = some det' ∧ Frame app.Name det det' := by
  unfold matchValue
  cases hre : p.regex with
  | none => exact ⟨det, rfl, Frame.refl _ _⟩
  | some re =>
    simp only
    split
    · exact recordMatch_frame app p re value det hre
    · exact ⟨det, rfl, Frame.refl _ _⟩

/-! ### Detection: every analyzer touches only the entry of its technology -/

theorem foldlM_frame {α : Type} (name : Str) (f : Detected → α → Option Detected) (l : List α)
    (h : ∀ s x, x ∈ l → ∃ s', f s x = some s' ∧ Frame name s s') (s : Detected) :
    ∃ s', l.foldlM f s = some s' ∧ Frame name s s' :=
  foldlM_rel (Frame name) (Frame.refl name) (fun _ _ _ h1 h2 => Frame.trans h1 h2) f l h s

theorem patternLoop_frame (name : Str) (step : Detected → pattern → Option Detected)
    (h : ∀ det p, ∃ det', step det p = some det' ∧ Frame name det det')
    (patterns : PatternMap) (det : Detected) :
    ∃ det', patterns.foldlM (fun det kv => kv.2.foldlM step det) det = some det' ∧
      Frame name det det' :=
  foldlM_frame name _ patterns (fun s kv _ => foldlM_frame name step kv.2 (fun s p _ => h s p) s) det

theorem analyzeURL_frame (cache : Cache) (app : application) (url : Str) (det : Detected) :
    ∃ det', analyzeURL cache app url det = some det' ∧ Frame app.Name det det' :=
  patternLoop_frame app.Name _ (fun det p => matchValue_frame app p det url) _ det

theorem analyzeHTML_frame (cache : Cache) (app : application) (html : Str) (det : Detected) :
    ∃ det', analyzeHTML cache app html det = some det' ∧ Frame app.Name det det' :=
  patternLoop_frame app.Name _ (fun det p => matchValue_frame app p det html) _ det

theorem analyzeScripts_frame (cache : Cache) (app : application) (scripts : List Str)
    (det : Detected) :
    ∃ det', analyzeScripts cache app scripts det = some det' ∧ Frame app.Name det det' := by
  refine patternLoop_frame app.Name _ (fun det p => ?_) _ det
  cases hre : p.regex with
  | none => exact ⟨det, rfl, Frame.refl _ _⟩
  | some re =>
    exact foldlM_frame app.Name _ scripts (fun s x _ => matchValue_frame app p s x) det

theorem mapSet_frame (name : Str) (det : Detected) (r : resultApp) :
    Frame name det (mapSet det name r) := by
  refine ⟨fun k hk => ?_, fun _ _ => ?_⟩
  · rw [mapGet_mapSet]; simp [Ne.symm hk]
  · rw [mapGet_mapSet]; simp

theorem headerStep_frame (app : application) (headers : GoMap (List Str)) (name : Str)
    (det : Detected) (p : pattern) :
    ∃ det', headerStep app headers name det p = some det' ∧ Frame app.Name det det' := by
  unfold headerStep
  cases mapGet headers name with
  | none => exact ⟨det, rfl, Frame.refl _ _⟩
  | some headersSlice =>
    simp only
    obtain ⟨det', h1, h2⟩ := foldlM_frame app.Name (matchValue app p) headersSlice
      (fun s x _ => matchValue_frame app p s x)
      (if p.regex.isNone then mapSet det app.Name (newResult app) else det)
    refine ⟨det', h1, Frame.trans ?_ h2⟩
    split
    · exact mapSet_frame _ _ _
    · exact Frame.refl _ _

theorem analyzeHeaders_frame (lowerRune : Char → Char) (cache : Cache) (app : application) (headers : GoMap (List Str))
    (det : Detected) :
    ∃ det', analyzeHeaders lowerRune cache app headers det = some det' ∧ Frame app.Name det det' :=
  foldlM_frame app.Name _ _ (fun s kv _ =>
    foldlM_frame app.Name _ kv.2 (fun s p _ => headerStep_frame app headers _ s p) s) det

theorem cookieStep_frame (app : application) (cookies : GoMap Str) (name : Str)
    (det : Detected) (p : pattern) :
    ∃ det', cookieStep app cookies name det p = some det' ∧ Frame app.Name det det' := by
  unfold cookieStep
  cases mapGet cookies name with
  | none => exact ⟨det, rfl, Frame.refl _ _⟩
  | some cookie =>
    simp only
    obtain ⟨det', h1, h2⟩ := matchValue_frame app p
      (if p.regex.isNone then
        (if mapHas det app.Name then det else mapSet det app.Name (newResult app))
      else det) cookie
    refine ⟨det', h1, Frame.trans ?_ h2⟩
    split
    · split
      · exact Frame.refl _ _
      · exact mapSet_frame _ _ _
    · exact Frame.refl _ _

theorem analyzeCookies_frame (lowerRune : Char → Char) (cache : Cache) (app : application) (cookies : GoMap Str)
    (det : Detected) :
    ∃ det', analyzeCookies lowerRune cache app cookies det = some det' ∧ Frame app.Name det det' :=
  foldlM_frame app.Name _ _ (fun s kv _ =>
    foldlM_frame app.Name _ kv.2 (fun s p _ => cookieStep_frame app cookies _ s p) s) det

theorem analyzeApp_frame (lowerRune : Char → Char) (cache : Cache) (httpdata : HttpData) (scripts : List Str)
    (cookies : GoMap Str) (det : Detected) (app : application) :
    ∃ det', analyzeApp lowerRune cache httpdata scripts cookies det app = some det' ∧
      Frame app.Name det det' := by
  unfold analyzeApp
  obtain ⟨d1, e1, f1⟩ := analyzeURL_frame cache app httpdata.Url det
  have h2 : ∃ d2, (if app.HTML.notNil then analyzeHTML cache app httpdata.Html d1 else some d1)
      = some d2 ∧ Frame app.Name d1 d2 := by
    split
    · exact analyzeHTML_frame _ _ _ _
    · exact ⟨d1, rfl, Frame.refl _ _⟩
  obtain ⟨d2, e2, f2⟩ := h2
  have h3 : ∃ d3, (if app.Headers.notNil then analyzeHeaders lowerRune cache app httpdata.Headers d2
      else some d2) = some d3 ∧ Frame app.Name d2 d3 := by
    split
    · exact analyzeHeaders_frame _ _ _ _ _
    · exact ⟨d2, rfl, Frame.refl _ _⟩
  obtain ⟨d3, e3, f3⟩ := h3
  have h4 : ∃ d4, (if app.Cookies.notNil then analyzeCookies lowerRune cache app cookies d3 else some d3)
      = some d4 ∧ Frame app.Name d3 d4 := by
    split
    · exact analyzeCookies_frame _ _ _ _ _
    · exact ⟨d3, rfl, Frame.refl _ _⟩
  obtain ⟨d4, e4, f4⟩ := h4
  have h5 : ∃ d5, (if app.Scripts.notNil then analyzeScripts cache app scripts d4 else some d4)
      = some d5 ∧ Frame app.Name d4 d5 := by
    split
    · exact analyzeScripts_frame _ _ _ _
    · exact ⟨d4, rfl, Frame.refl _ _⟩
  obtain ⟨d5, e5, f5⟩ := h5
  refine ⟨d5, ?_, Frame.trans (Frame.trans (Frame.trans (Frame.trans f1 f2) f3) f4) f5⟩
  simp [e1, e2, e3, e4, e5]

/-- The loop over other technologies keeps what is under `name`. -/
theorem detectLoop_other (lowerRune : Char → Char) (cache : Cache) (httpdata : HttpData) (scripts : List Str)
    (cookies : GoMap Str) (name : Str) (apps : GoMap application)
    (h : ∀ kv ∈ apps, kv.2.Name ≠ name) (det : Detected) :
    ∃ out, apps.foldlM (fun det kv => analyzeApp lowerRune cache httpdata scripts cookies det kv.2) det
        = some out ∧ mapGet out name = mapGet det name := by
  induction apps generalizing det with
  | nil => exact ⟨det, rfl, rfl⟩
  | cons kv rest ih =>
    obtain ⟨d1, e1, f1⟩ := analyzeApp_frame lowerRune cache httpdata scripts cookies det kv.2
    obtain ⟨out, e2, g2⟩ := ih (fun kv' hkv' => h kv' (List.mem_cons_of_mem _ hkv')) d1
    refine ⟨out, ?_, ?_⟩
    · simp [List.foldlM, e1, e2]
    · rw [g2]; exact f1.1 name (Ne.symm (h kv (by simp)))

/-- What the detection phase leaves under the name of a technology of the
catalog is what the analysis of that technology leaves there, from a result
set without that name. -/
theorem detect_entry (lowerRune : Char → Char) (cache : Cache) (httpdata : HttpData) (scripts : List Str)
    (app : application) (Q : Option resultApp → Prop)
    (hQ : ∀ det, mapGet det app.Name = none →
      ∃ det', analyzeApp lowerRune cache httpdata scripts (deriveCookies httpdata.Headers) det app = some det' ∧
        Q (mapGet det' app.Name))
    (apps : GoMap application) (hnd : (apps.map (fun kv => kv.2.Name)).Nodup)
    (hmem : app ∈ apps.map (fun kv => kv.2)) :
    ∃ out, detect lowerRune cache apps httpdata scripts = some out ∧ Q (mapGet out app.Name) := by
  unfold detect
  have key : ∀ (l : GoMap application) (det : Detected),
      (l.map (fun kv => kv.2.Name)).Nodup → app ∈ l.map (fun kv => kv.2) →
      mapGet det app.Name = none →
      ∃ out, l.foldlM (fun det kv =>
          analyzeApp lowerRune cache httpdata scripts (deriveCookies httpdata.Headers) det kv.2) det
        = some out ∧ Q (mapGet out app.Name) := by
    intro l
    induction l with
    | nil => intro det _ hm; simp at hm
    | cons kv rest ih =>
      intro det hnd hm hdet
      simp only [List.map_cons, List.nodup_cons, List.mem_map, not_exists, not_and] at hnd
      by_cases hkv : kv.2 = app
      · obtain ⟨d1, e1, q1⟩ := hQ det hdet
        obtain ⟨out, e2, g2⟩ := detectLoop_other lowerRune cache httpdata scripts
          (deriveCookies httpdata.Headers) app.Name rest
          (fun kv' hkv' hn => hnd.1 kv' hkv' (by rw [hn, hkv])) d1
        refine ⟨out, ?_, ?_⟩
        · simp [List.foldlM, hkv, e1, e2]
        · rw [g2]; exact q1
      · have hm' : app ∈ rest.map (fun kv => kv.2) := by
          simp only [List.map_cons, List.mem_cons] at hm
          rcases hm with hm | hm
          · exact absurd hm.symm hkv
          · exact hm
        have hne : kv.2.Name ≠ app.Name := by
          intro hn
          obtain ⟨kv', hkv', he⟩ := List.mem_map.1 hm'
          exact hnd.1 kv' hkv' (by rw [he, hn])
        obtain ⟨d1, e1, f1⟩ := analyzeApp_frame lowerRune cache httpdata scripts
          (deriveCookies httpdata.Headers) det kv.2
        obtain ⟨out, e2, q2⟩ := ih d1 hnd.2 hm' (by rw [f1.1 _ (Ne.symm hne)]; exact hdet)
        refine ⟨out, ?_, q2⟩
        simp [List.foldlM, e1, e2]
  exact key apps [] hnd hmem rfl

/-! ### The cache and the patterns of one technology -/

theorem foldlM_fixed {α σ : Type} (f : σ → α → Option σ) (s : σ) (l : List α)
    (h : ∀ x ∈ l, f s x = some s) : l.foldlM f s = some s := by
  induction l with
  | nil => rfl
  | cons x xs ih =>
    simp [List.foldlM, h x (by simp), ih (fun y hy => h y (List.mem_cons_of_mem _ hy))]

theorem initCache_fold (compile : Str → Option Regexp) (inits : List application) :
    ∀ (c0 cache : Cache), inits.foldlM (initPatterns compile) c0 = some cache →
      (∀ name, name ∉ inits.map (fun a => a.Name) → mapGet cache name = mapGet c0 name) ∧
      ((inits.map (fun a => a.Name)).Nodup → ∀ app ∈ inits,
        ∃ c, signalPatterns compile app = some c ∧ mapGet cache app.Name = some c) := by
  induction inits with
  | nil =>
    intro c0 cache h
    simp [List.foldlM] at h
    subst h
    exact ⟨fun _ _ => rfl, fun _ app ha => by simp at ha⟩
  | cons a rest ih =>
    intro c0 cache h
    simp only [List.foldlM] at h
    cases h1 : initPatterns compile c0 a with
    | none => simp [h1] at h
    | some c1 =>
      simp only [h1, Option.bind_eq_bind, Option.some_bind] at h
      obtain ⟨ihA, ihB⟩ := ih c1 cache h
      unfold initPatterns at h1
      cases hs : signalPatterns compile a with
      | none => simp [hs] at h1
      | some c =>
        simp only [hs, Option.map_some', Option.some.injEq] at h1
        subst h1
        constructor
        · intro name hname
          simp only [List.map_cons, List.mem_cons, not_or] at hname
          rw [ihA name hname.2, mapGet_mapSet]
          simp [Ne.symm hname.1]
        · intro hnd app happ
          simp only [List.map_cons, List.nodup_cons] at hnd
          simp only [List.mem_cons] at happ
          rcases happ with happ | happ
          · subst happ
            refine ⟨c, hs, ?_⟩
            rw [ihA _ hnd.1, mapGet_mapSet]
            simp
          · exact ihB hnd.2 app happ

theorem getPatterns_of_initCache (compile : Str → Option Regexp) (inits : List application)
    (cache : Cache) (app : application) (hc : initCache compile inits = some cache)
    (hnd : (inits.map (fun a => a.Name)).Nodup) (hmem : app ∈ inits) :
    ∃ c, signalPatterns compile app = some c ∧
      ∀ typ, getPatterns cache app typ = (mapGet c typ).getD [] := by
  obtain ⟨c, h1, h2⟩ := (initCache_fold compile inits [] cache hc).2 hnd app hmem
  exact ⟨c, h1, fun typ => by simp [getPatterns, h2]⟩

theorem parsePatterns0_str (compile : Str → Option Regexp) (raw : Str) :
    parsePatterns0 compile (.str raw) = some [("main".toList, [parsePattern compile raw])] := by
  simp [parsePatterns0, parsedStrings, compileParsed, mapSet, mapGet]

theorem parsePattern_empty (compile : Str → Option Regexp) :
    parsePattern compile [] = ⟨[], none, [], []⟩ := by
  simp [parsePattern, split, splitGo, parseItems, parseItem]

theorem parsePatterns0_presence (compile : Str → Option Regexp) (H : Str) :
    parsePatterns0 compile (.obj [(H, .str [])]) = some [(H, [⟨[], none, [], []⟩])] := by
  simp [parsePatterns0, parsedStrings, compileParsed, mapSet, mapGet, Val.asString,
    parsePattern_empty, List.foldlM]

theorem signalPatterns_presence_header (compile : Str → Option Regexp) (app : application)
    (H : Str) (hH : app.Headers = .obj [(H, .str [])]) (hU : app.URL = [])
    (hHTML : app.HTML = .null) (hC : app.Cookies = .null) (hS : app.Scripts = .null) :
    signalPatterns compile app = some [("url".toList, [("main".toList, [⟨[], none, [], []⟩])]),
      ("headers".toList, [(H, [⟨[], none, [], []⟩])])] := by
  simp [signalPatterns, initSignal, hH, hU, hHTML, hC, hS, Val.notNil, parsePatterns0_str,
    parsePatterns0_presence, parsePattern_empty, mapSet]

theorem signalPatterns_script (compile : Str → Option Regexp) (app : application)
    (raw : Str) (hS : app.Scripts = .str raw) (hU : app.URL = [])
    (hHTML : app.HTML = .null) (hC : app.Cookies = .null) (hH : app.Headers = .null) :
    signalPatterns compile app = some [("url".toList, [("main".toList, [⟨[], none, [], []⟩])]),
      ("scripts".toList, [("main".toList, [parsePattern compile raw])])] := by
  simp [signalPatterns, initSignal, hH, hU, hHTML, hC, hS, Val.notNil, parsePatterns0_str,
    parsePattern_empty, mapSet]


theorem matchValue_presence (app : application) (det : Detected) (value : Str) :
    matchValue app ⟨[], none, [], []⟩ det value = some det := rfl

theorem matchValue_of_detected (app : application) (p : pattern) (det : Detected) (value : Str)
    (h : mapHas det app.Name = true) : matchValue app p det value = some det := by
  unfold matchValue
  cases p.regex with
  | none => rfl
  | some re =>
    simp only
    split
    · simp [recordMatch, h]
    · rfl

theorem matchValue_no_match (app : application) (p : pattern) (re : Regexp) (det : Detected)
    (value : Str) (hre : p.regex = some re) (h : re.matchString value = false) :
    matchValue app p det value = some det := by
  unfold matchValue
  rw [hre]
  simp [h]

theorem foldlM_append_cons {α σ : Type} (f : σ → α → Option σ) (s s1 : σ) (pre post : List α)
    (x : α) (h1 : pre.foldlM f s = some s) (h2 : f s x = some s1)
    (h3 : post.foldlM f s1 = some s1) : (pre ++ x :: post).foldlM f s = some s1 := by
  rw [List.foldlM_append, h1]
  simp [List.foldlM, h2, h3]

/-! ### Exclusion and implication: lemmas -/

theorem mapGet_mem {β : Type} (m : GoMap β) (k : Str) (v : β) (h : mapGet m k = some v) :
    (k, v) ∈ m := by
  induction m with
  | nil => simp [mapGet] at h
  | cons e m ih =>
    obtain ⟨a, b⟩ := e
    by_cases hk : a = k
    · simp [mapGet, hk] at h
      simp [hk, h]
    · simp [mapGet, hk] at h
      exact List.mem_cons_of_mem _ (ih h)

theorem excludesLoop_spec (excls : List Val) (h : excls.all (fun v => (v.asString).isSome) = true)
    (det : Detected) :
    ∃ det', excls.foldlM (fun det v => (v.asString).map (fun s => mapDelete det s)) det = some det' ∧
      ∀ k, mapGet det' k = if k ∈ excls.filterMap Val.asString then none else mapGet det k := by
  induction excls generalizing det with
  | nil => exact ⟨det, rfl, fun k => by simp⟩
  | cons v vs ih =>
    simp only [List.all_cons, Bool.and_eq_true] at h
    obtain ⟨s, hs⟩ := Option.isSome_iff_exists.1 h.1
    obtain ⟨det', h1, h2⟩ := ih h.2 (mapDelete det s)
    refine ⟨det', by simp [List.foldlM, hs, h1], fun k => ?_⟩
    rw [h2 k, mapGet_mapDelete]
    by_cases hk : s = k
    · simp [List.filterMap_cons, hs, hk]
    · have hk' : ¬ k = s := fun e => hk e.symm
      simp [List.filterMap_cons, hs, hk, hk']

theorem resolveExcludes_spec (v : Val) (h : wfRel v = true) (det : Detected) :
    ∃ det', resolveExcludes det v = some det' ∧
      ∀ k, mapGet det' k = if k ∈ relNames v then none else mapGet det k := by
  cases v with
  | str s =>
    refine ⟨mapDelete det s, rfl, fun k => ?_⟩
    rw [mapGet_mapDelete]
    by_cases hk : s = k
    · simp [relNames, hk]
    · have hk' : ¬ k = s := fun e => hk e.symm
      simp [relNames, hk, hk']
  | arr l => exact excludesLoop_spec l h det
  | null => exact ⟨det, rfl, fun k => by simp [relNames]⟩
  | obj o => exact ⟨det, rfl, fun k => by simp [relNames]⟩
  | other => exact ⟨det, rfl, fun k => by simp [relNames]⟩

theorem implyName_spec (apps : GoMap application) (hkey : ∀ kv ∈ apps, kv.2.Name = kv.1)
    (det : Detected) (s : Str) :
    (∀ k, ImpliedAt apps [s] det (implyName apps det s) k) ∧
      (∀ a, mapGet apps s = some a → (mapGet (implyName apps det s) s).isSome = true) := by
  unfold implyName
  cases ha : mapGet apps s with
  | none => exact ⟨fun k => Or.inl rfl, fun a h => by simp at h⟩
  | some a =>
    have hn : a.Name = s := hkey (s, a) (mapGet_mem apps s a ha)
    simp only [hn]
    by_cases hh : mapHas det s = true
    · simp only [hh, if_true]
      exact ⟨fun k => Or.inl rfl, fun _ _ => hh⟩
    · simp only [hh, Bool.false_eq_true, if_false]
      constructor
      · intro k
        by_cases hk : s = k
        · subst hk
          right
          refine ⟨?_, by simp, a, ha, by simp [mapGet_mapSet]⟩
          cases hg : mapGet det s with
          | none => rfl
          | some r => simp [mapHas, hg] at hh
        · left
          simp [mapGet_mapSet, hk]
      · intro _ _
        simp [mapGet_mapSet]

theorem impliesLoop_spec (apps : GoMap application) (hkey : ∀ kv ∈ apps, kv.2.Name = kv.1)
    (impls : List Val) (h : impls.all (fun v => (v.asString).isSome) = true) (det : Detected) :
    ∃ det', impls.foldlM (fun det v => (v.asString).map (fun s => implyName apps det s)) det
        = some det' ∧
      (∀ k, ImpliedAt apps (impls.filterMap Val.asString) det det' k) ∧
      (∀ n ∈ impls.filterMap Val.asString, ∀ a, mapGet apps n = some a →
        (mapGet det' n).isSome = true) ∧
      (∀ k, (mapGet det k).isSome = true → mapGet det' k = mapGet det k) := by
  induction impls generalizing det with
  | nil => exact ⟨det, rfl, fun k => Or.inl rfl, fun n hn => by simp at hn, fun _ _ => rfl⟩
  | cons v vs ih =>
    simp only [List.all_cons, Bool.and_eq_true] at h
    obtain ⟨s, hs⟩ := Option.isSome_iff_exists.1 h.1
    obtain ⟨i1, i2⟩ := implyName_spec apps hkey det s
    obtain ⟨det', h1, h2, h3, h4⟩ := ih h.2 (implyName apps det s)
    have keep : ∀ k, (mapGet det k).isSome = true → mapGet (implyName apps det s) k = mapGet det k := by
      intro k hk
      rcases i1 k with e | ⟨e, _⟩
      · exact e
      · simp [e] at hk
    refine ⟨det', by simp [List.foldlM, hs, h1], fun k => ?_, fun n hn a ha => ?_, fun k hk => ?_⟩
    · rcases h2 k with e2 | ⟨e2, m2, a, ha, r2⟩
      · rcases i1 k with e1 | ⟨e1, m1, a, ha, r1⟩
        · exact Or.inl (e2.trans e1)
        · right
          simp only [List.mem_singleton] at m1
          exact ⟨e1, by simp [List.filterMap_cons, hs, m1], a, ha, e2.trans r1⟩
      · rcases i1 k with e1 | ⟨e1, m1, a1, ha1, r1⟩
        · right
          refine ⟨by rw [← e1]; exact e2, ?_, a, ha, r2⟩
          simp [List.filterMap_cons, hs]
          exact Or.inr (by simpa using m2)
        · rw [r1] at e2
          simp at e2
    · simp only [List.filterMap_cons, hs, List.mem_cons] at hn
      rcases hn with hn | hn
      · subst hn
        have := i2 a ha
        rw [h4 _ this]
        exact this
      · exact h3 n hn a ha
    · have e := keep k hk
      rw [h4 k (by rw [e]; exact hk), e]

theorem resolveImplies_spec (apps : GoMap application) (hkey : ∀ kv ∈ apps, kv.2.Name = kv.1)
    (v : Val) (h : wfRel v = true) (det : Detected) :
    ∃ det', resolveImplies apps det v = some det' ∧
      (∀ k, ImpliedAt apps (relNames v) det det' k) ∧
      (∀ n ∈ relNames v, ∀ a, mapGet apps n = some a → (mapGet det' n).isSome = true) := by
  cases v with
  | str s =>
    obtain ⟨i1, i2⟩ := implyName_spec apps hkey det s
    refine ⟨implyName apps det s, rfl, i1, fun n hn a ha => ?_⟩
    simp only [relNames, List.mem_singleton] at hn
    subst hn
    exact i2 a ha
  | arr l =>
    obtain ⟨det', h1, h2, h3, _⟩ := impliesLoop_spec apps hkey l h det
    exact ⟨det', h1, h2, h3⟩
  | null => exact ⟨det, rfl, fun k => Or.inl rfl, fun n hn => by simp [relNames] at hn⟩
  | obj o => exact ⟨det, rfl, fun k => Or.inl rfl, fun n hn => by simp [relNames] at hn⟩
  | other => exact ⟨det, rfl, fun k => Or.inl rfl, fun n hn => by simp [relNames] at hn⟩


theorem guard_excludes (det : Detected) (v : Val) :
    (if v.notNil then resolveExcludes det v else some det) = resolveExcludes det v := by
  cases v <;> rfl

theorem guard_implies (apps : GoMap application) (det : Detected) (v : Val) :
    (if v.notNil then resolveImplies apps det v else some det) = resolveImplies apps det v := by
  cases v <;> rfl

/-- One step of the second loop: first the exclusions of the visited entry
(result `det1`), then its implications (result `det'`). -/
theorem resolveStep_spec (apps : GoMap application) (hkey : ∀ kv ∈ apps, kv.2.Name = kv.1)
    (hwf : ∀ kv ∈ apps, wfRel kv.2.Excludes = true ∧ wfRel kv.2.Implies = true)
    (det : Detected) (hcat : FromCatalog apps det) (name : Str) :
    ∃ det1 det', resolveStep apps det name = some det' ∧ FromCatalog apps det' ∧
      (∀ k, mapGet det1 k = mapGet det k ∨
        (mapGet det1 k = none ∧ ∃ kv ∈ apps, k ∈ relNames kv.2.Excludes)) ∧
      (∀ k, mapGet det' k = mapGet det1 k ∨
        (mapGet det1 k = none ∧ (∃ kv ∈ apps, k ∈ relNames kv.2.Implies) ∧
          ∃ a, mapGet apps k = some a ∧ mapGet det' k = some (newResult a))) ∧
      (∀ r, mapGet det name = some r →
        (∀ k ∈ relNames r.excludes, mapGet det1 k = none) ∧
        (∀ n ∈ relNames r.implies, ∀ a, mapGet apps n = some a → (mapGet det' n).isSome = true)) := by
  unfold resolveStep
  cases hr : mapGet det name with
  | none =>
    exact ⟨det, det, rfl, hcat, fun k => Or.inl rfl, fun k => Or.inl rfl, fun r h => by simp at h⟩
  | some r =>
    obtain ⟨kv, hkv, he, hi⟩ := hcat name r hr
    have hwe : wfRel r.excludes = true := by rw [he]; exact (hwf kv hkv).1
    have hwi : wfRel r.implies = true := by rw [hi]; exact (hwf kv hkv).2
    obtain ⟨det1, e1, s1⟩ := resolveExcludes_spec r.excludes hwe det
    obtain ⟨det', e2, s2, s3⟩ := resolveImplies_spec apps hkey r.implies hwi det1
    refine ⟨det1, det', ?_, ?_, ?_, ?_, ?_⟩
    · simp only [guard_excludes, guard_implies]
      rw [e1]
      exact e2
    · intro k rk hk
      rcases s2 k with e | ⟨_, _, a, ha, e⟩
      · rw [e, s1 k] at hk
        by_cases hx : k ∈ relNames r.excludes
        · simp [hx] at hk
        · simp only [hx, if_false] at hk
          exact hcat k rk hk
      · rw [e] at hk
        simp only [Option.some.injEq] at hk
        subst hk
        exact ⟨(k, a), mapGet_mem apps k a ha, rfl, rfl⟩
    · intro k
      by_cases hx : k ∈ relNames r.excludes
      · right
        refine ⟨by rw [s1 k]; simp [hx], kv, hkv, by rw [← he]; exact hx⟩
      · left
        rw [s1 k]; simp [hx]
    · intro k
      rcases s2 k with e | ⟨e, m, a, ha, e'⟩
      · exact Or.inl e
      · exact Or.inr ⟨e, ⟨kv, hkv, by rw [← hi]; exact m⟩, a, ha, e'⟩
    · intro r' hr'
      simp only [Option.some.injEq] at hr'
      subst hr'
      exact ⟨fun k hk => by rw [s1 k]; simp [hk], s3⟩

theorem fromCatalog_allMatched (apps l : GoMap application) (hl : ∀ kv ∈ l, kv ∈ apps) :
    FromCatalog apps (allMatched l) := by
  intro name r h
  have hm := mapGet_mem _ _ _ h
  obtain ⟨kv, hkv, he⟩ := List.mem_map.1 hm
  simp only [Prod.mk.injEq] at he
  exact ⟨kv, hl kv hkv, by rw [← he.2]; rfl, by rw [← he.2]; rfl⟩

/-! ### The claims -/

/-- C1, at a failing input: the technology has the url pattern `v(\d)` with
template `\1` and a presence-only pattern for the header `X-Gen`.  On the
page of url `v1` without headers the entry has version `1`; when the page
also has the header `x-gen`, the entry made by the url match (version `1`) is
replaced by `analyzeHeaders` and the detection ends with the declared, empty
version. -/
theorem C1_presence_header_replaces_entry :
    detectExample [techUrlHeader] ⟨"v1".toList, [], []⟩ [] = some [("T".toList, "1".toList)] ∧
    detectExample [techUrlHeader] ⟨"v1".toList, [("x-gen".toList, [])], []⟩ []
      = some [("T".toList, [])] := by
  decide

/-- C3, at a failing input: the technology has a presence-only pattern for
the cookie `PHPSESSID`; the page sets the cookie `PHPSESSID`, which is in the
derived cookies under that name, and the detection finds nothing, because
`analyzeCookies` looks up the lower-cased name `phpsessid`. -/
theorem C3_cookie_name_case_missed :
    mapGet (deriveCookies [("set-cookie".toList, ["PHPSESSID=abc".toList])]) "PHPSESSID".toList
      = some "abc".toList ∧
    detectExample [techCookie] ⟨[], [("set-cookie".toList, ["PHPSESSID=abc".toList])], []⟩ []
      = some [] := by
  decide

/-- C6, at the failing input: the expression `v(\d)` matches the text `v1 v9`
twice, with captures `1` and `9`; with the template `\1` and an empty
declared version `detectVersion` sets the version to `1`, not to `9`. -/
theorem C6_only_first_instance_resolved :
    (reVDigit.toRegexp 1).findAllStringSubmatch "v1 v9".toList
      = [["v1".toList, "1".toList], ["v9".toList, "9".toList]] ∧
    resolvedVersion [] (reVDigit.toRegexp 1) "\\1".toList "v1 v9".toList = some "1".toList := by
  decide

/-- C7, amended: when the version template holds no backreference token of
an index that has a capture (in any match instance), `detectVersion` resolves
the template to itself: a token whose index is beyond the captures stays in
the version, which replaces the entry's version when it is non-empty and
greater than it. -/
theorem C7_tokens_beyond_captures_stay (app : resultApp) (p : pattern) (re : Regexp) (value : Str)
    (hre : p.regex = some re) (hm : re.findAllStringSubmatch value ≠ [])
    (hno : ∀ sl ∈ re.findAllStringSubmatch value, ∀ j, j < sl.length → ¬ backref j <:+: p.version) :
    detectVersion app p value =
      some (if p.version ≠ [] ∧ strGt p.version app.Version = true
            then { app with Version := p.version } else app) := by
  rw [detectVersion_of_resolved app p re value hre hm, substSlices_of_no_token _ _ hno]

/-- C7, amended, at a concrete input: the expression `foo` (no group), the
template `\1`, the text `foo` and an entry of declared version `2.0`. -/
theorem C7_witness :
    (reFoo.toRegexp 0).findAllStringSubmatch "foo".toList ≠ [] ∧
    detectVersion entryT ⟨[], some (reFoo.toRegexp 0), "\\1".toList, []⟩ "foo".toList
      = some { entryT with Version := "\\1".toList } :=
  ⟨by decide, C7_tokens_beyond_captures_stay entryT ⟨[], some (reFoo.toRegexp 0), "\\1".toList, []⟩
    (reFoo.toRegexp 0) "foo".toList rfl (by decide) (by decide)⟩

/-- C7 as stated fails: with the expression `foo`, the template `\1` and the
text `foo`, the version resolved for an entry of empty declared version is
the text `\1`: the token is left in the version, which does not stay the
declared (empty) version. -/
theorem C7_counterexample :
    resolvedVersion [] (reFoo.toRegexp 0) "\\1".toList "foo".toList = some "\\1".toList := by
  decide

/-- C8: for a pattern without version template, whatever the matched text,
`detectVersion` returns the entry as it was: its version stays the declared
version of the technology. -/
theorem C8_empty_template_keeps_declared_version (app : resultApp) (p : pattern) (re : Regexp) (value : Str)
    (hre : p.regex = some re) (hv : p.version = []) :
    detectVersion app p value = some app := by
  by_cases hm : re.findAllStringSubmatch value = []
  · exact detectVersion_no_match app p re value hre hm
  · rw [detectVersion_of_resolved app p re value hre hm, hv]
    have : substSlices [] (re.findAllStringSubmatch value) = [] :=
      substSlices_of_no_token [] _ (fun sl _ j _ hi => by
        have := List.IsInfix.length_le hi
        simp [backref] at this)
    simp [this]

/-- C8 at a concrete input: the expression `foo` without version template,
the text `foo` and an entry of declared version `2.0`. -/
theorem C8_witness :
    detectVersion entryT ⟨[], some (reFoo.toRegexp 0), [], []⟩ "foo".toList = some entryT :=
  C8_empty_template_keeps_declared_version entryT ⟨[], some (reFoo.toRegexp 0), [], []⟩
    (reFoo.toRegexp 0) "foo".toList rfl rfl

/-- C9: in a result set whose entries stem from the catalog, let the entry
of `A` declare `excludes B` (as a name or inside a sequence), no technology
of the catalog exclude `A` and none imply `B`.  Then the exclude/imply pass
ends, whatever the order of the visits (`A`, never removed, is visited),
with a set that contains `A` and does not contain `B`. -/
theorem C9_exclusion_removes_excluded (apps : GoMap application) (det : Detected) (order : List Str) (A B : Str)
    (rA : resultApp)
    (hkey : ∀ kv ∈ apps, kv.2.Name = kv.1)
    (hwf : ∀ kv ∈ apps, wfRel kv.2.Excludes = true ∧ wfRel kv.2.Implies = true)
    (hcat : FromCatalog apps det)
    (hA : mapGet det A = some rA) (hex : B ∈ relNames rA.excludes)
    (hnoA : ∀ kv ∈ apps, A ∉ relNames kv.2.Excludes)
    (hnoB : ∀ kv ∈ apps, B ∉ relNames kv.2.Implies)
    (hord : A ∈ order) :
    ∃ out, resolvePass apps det order = some out ∧ mapHas out A = true ∧ mapHas out B = false := by
  have key : ∀ (order : List Str) (det : Detected), FromCatalog apps det → mapGet det A = some rA →
      (A ∈ order ∨ mapGet det B = none) →
      ∃ out, order.foldlM (resolveStep apps) det = some out ∧ mapGet out A = some rA ∧
        mapGet out B = none := by
    intro order
    induction order with
    | nil =>
      intro det _ hA hB
      simp only [List.not_mem_nil, false_or] at hB
      exact ⟨det, rfl, hA, hB⟩
    | cons name rest ih =>
      intro det hcat hA hB
      obtain ⟨det1, det', e, hcat', s1, s2, s3⟩ := resolveStep_spec apps hkey hwf det hcat name
      have a1 : mapGet det1 A = some rA := by
        rcases s1 A with h | ⟨_, kv, hkv, h⟩
        · rw [h, hA]
        · exact absurd h (hnoA kv hkv)
      have a2 : mapGet det' A = some rA := by
        rcases s2 A with h | ⟨h, _⟩
        · rw [h, a1]
        · rw [a1] at h; simp at h
      have b2 : mapGet det1 B = none → mapGet det' B = none := by
        intro hb
        rcases s2 B with h | ⟨_, ⟨kv, hkv, h⟩, _⟩
        · rw [h, hb]
        · exact absurd h (hnoB kv hkv)
      have b1 : mapGet det B = none → mapGet det1 B = none := by
        intro hb
        rcases s1 B with h | ⟨h, _⟩
        · rw [h, hb]
        · exact h
      have step : A ∈ rest ∨ mapGet det' B = none := by
        rcases hB with hB | hB
        · simp only [List.mem_cons] at hB
          rcases hB with hB | hB
          · subst hB
            exact Or.inr (b2 ((s3 rA hA).1 B hex))
          · exact Or.inl hB
        · exact Or.inr (b2 (b1 hB))
      obtain ⟨out, e', o1, o2⟩ := ih det' hcat' a2 step
      exact ⟨out, by simp [List.foldlM, e, e'], o1, o2⟩
  obtain ⟨out, e, o1, o2⟩ := key order det hcat hA (Or.inl hord)
  exact ⟨out, e, by simp [mapHas, o1], by simp [mapHas, o2]⟩

/-- C9 at a concrete input: `A` excludes `B`, both are matched, and `B` is
visited before `A`. -/
theorem C9_witness :
    mapHas (allMatched catalogExcl) "B".toList = true ∧
    ∃ out, resolvePass catalogExcl (allMatched catalogExcl) ["B".toList, "A".toList] = some out ∧
      mapHas out "A".toList = true ∧ mapHas out "B".toList = false :=
  ⟨by decide, C9_exclusion_removes_excluded catalogExcl (allMatched catalogExcl)
    ["B".toList, "A".toList] "A".toList "B".toList
    (newResult { Name := "A".toList, Excludes := .arr [.str "B".toList] })
    (by decide) (by decide) (fromCatalog_allMatched catalogExcl catalogExcl (fun _ h => h)) rfl (by decide) (by decide)
    (by decide) (by decide)⟩

/-! ### Later claims: lemmas on strings -/

theorem strGt_irrefl (a : Str) : strGt a a = false := by
  induction a with
  | nil => rfl
  | cons c cs ih => simp [strGt, ih]

theorem strGt_asymm (a b : Str) (h : strGt a b = true) : strGt b a = false := by
  induction a generalizing b with
  | nil => simp [strGt] at h
  | cons c cs ih =>
    cases b with
    | nil => rfl
    | cons d ds =>
      simp only [strGt] at h ⊢
      by_cases h1 : d < c
      · have h2 : ¬ c < d := fun h2 => absurd (lt_trans h1 h2) (lt_irrefl _)
        simp [h1, h2]
      · by_cases h2 : c < d
        · simp [h1, h2] at h
        · simp only [h1, h2, if_false] at h ⊢
          exact ih ds h

/-! ### The claims on the declared version and on safety -/

/-- C19: for a pattern with a regex, `detectVersion` returns an entry.  When
the regex matches, the entry's version is the lexicographic maximum of the
text resolved from the template and the declared version; when it does not
match, the entry is unchanged.  The version is the declared one when the
resolved text is empty or not strictly greater, and it is never
lexicographically smaller than the declared version. -/
theorem C19_declared_version_is_floor (app : resultApp) (p : pattern) (re : Regexp) (value : Str)
    (hre : p.regex = some re) :
    ∃ r, detectVersion app p value = some r ∧
      (re.findAllStringSubmatch value ≠ [] →
        r.Version = strMax (substSlices p.version (re.findAllStringSubmatch value)) app.Version) ∧
      (re.findAllStringSubmatch value = [] → r = app) ∧
      ((substSlices p.version (re.findAllStringSubmatch value) = [] ∨
          strGt (substSlices p.version (re.findAllStringSubmatch value)) app.Version = false) →
        r.Version = app.Version) ∧
      strGt app.Version r.Version = false := by
  by_cases hm : re.findAllStringSubmatch value = []
  · refine ⟨app, detectVersion_no_match app p re value hre hm, fun h => absurd hm h, fun _ => rfl,
      fun _ => rfl, strGt_irrefl _⟩
  · rw [detectVersion_of_resolved app p re value hre hm]
    generalize substSlices p.version (re.findAllStringSubmatch value) = v
    by_cases hg : strGt v app.Version = true
    · have hv : v ≠ [] := by
        intro e; rw [e] at hg; simp [strGt] at hg
      refine ⟨_, rfl, fun _ => ?_, fun h => absurd h hm, fun h => ?_, ?_⟩
      · simp [hv, hg, strMax]
      · rcases h with h | h
        · exact absurd h hv
        · rw [hg] at h; cases h
      · simp [hv, hg]
        exact strGt_asymm _ _ hg
    · refine ⟨_, rfl, fun _ => ?_, fun h => absurd h hm, fun _ => ?_, ?_⟩
      · simp [hg, strMax]
      · simp [hg]
      · simp [hg]
        exact strGt_irrefl _

/-- C19 at a concrete input: the declared version `9`, the expression
`ver=(.+)` with the template `\1` and the text `ver=10`; the extracted `10`
is not greater than `9` and the version stays `9`. -/
theorem C19_witness :
    strGt "10".toList "9".toList = false ∧
    ∃ r, detectVersion entryNine ⟨[], some (reVerAny.toRegexp 1), "\\1".toList, []⟩ "ver=10".toList
        = some r ∧
      ((reVerAny.toRegexp 1).findAllStringSubmatch "ver=10".toList ≠ [] →
        r.Version = strMax (substSlices "\\1".toList
          ((reVerAny.toRegexp 1).findAllStringSubmatch "ver=10".toList)) entryNine.Version) ∧
      ((reVerAny.toRegexp 1).findAllStringSubmatch "ver=10".toList = [] → r = entryNine) ∧
      ((substSlices "\\1".toList ((reVerAny.toRegexp 1).findAllStringSubmatch "ver=10".toList) = [] ∨
          strGt (substSlices "\\1".toList
            ((reVerAny.toRegexp 1).findAllStringSubmatch "ver=10".toList)) entryNine.Version = false) →
        r.Version = entryNine.Version) ∧
      strGt entryNine.Version r.Version = false :=
  ⟨by decide, C19_declared_version_is_floor entryNine
    ⟨[], some (reVerAny.toRegexp 1), "\\1".toList, []⟩ (reVerAny.toRegexp 1) "ver=10".toList rfl⟩

/-- C20: the detection phase never dereferences a nil regex: for every cache
of compiled patterns (presence-only patterns and patterns whose expression
did not compile included), catalog, page and script sources, `detect` returns
a result set; the panic of `detectVersion` on a pattern without regex is
never reached. -/
theorem C20_detection_never_dereferences_nil (lowerRune : Char → Char) (cache : Cache) (apps : GoMap application) (httpdata : HttpData)
    (scripts : List Str) : ∃ det, detect lowerRune cache apps httpdata scripts = some det := by
  unfold detect
  obtain ⟨det, h, _⟩ := foldlM_rel (fun (_ _ : Detected) => True) (fun _ => trivial)
    (fun _ _ _ _ _ => trivial)
    (fun det (kv : Str × application) =>
      analyzeApp lowerRune cache httpdata scripts (deriveCookies httpdata.Headers) det kv.2) apps
    (fun s x _ => by
      obtain ⟨s', h, _⟩ := analyzeApp_frame lowerRune cache httpdata scripts
        (deriveCookies httpdata.Headers) s x.2
      exact ⟨s', h, trivial⟩) []
  exact ⟨det, h⟩

theorem parseCategories_fold (categories : GoMap category) (cats : List Int) (app : application) :
    (cats.foldl (fun app cat =>
      match mapGet categories (decimalInt cat) with
      | some catData => { app with Categories := app.Categories ++ [catData.Name] }
      | none => app) app).Categories
      = app.Categories ++ cats.filterMap (fun c => (mapGet categories (decimalInt c)).map (fun d => d.Name)) := by
  induction cats generalizing app with
  | nil => simp
  | cons c cs ih =>
    rw [List.foldl_cons, ih]
    cases h : mapGet categories (decimalInt c) with
    | none => simp [List.filterMap_cons, h]
    | some d => simp [List.filterMap_cons, h]

/-! ### Pattern compilation: lemmas -/

theorem parseItem_later (compile : Str → Option Regexp) (p : pattern) (i : Nat) (item : Str)
    (hi : 0 < i) :
    (parseItem compile p i item).regex = p.regex ∧ (parseItem compile p i item).str = p.str := by
  unfold parseItem
  by_cases h : item = []
  · simp [h]
  · simp only [h, if_false, hi, if_true]
    split
    · split <;> exact ⟨rfl, rfl⟩
    · exact ⟨rfl, rfl⟩

theorem parseItems_later (compile : Str → Option Regexp) (items : List Str) (p : pattern) (i : Nat)
    (hi : 0 < i) :
    (parseItems compile p i items).regex = p.regex ∧ (parseItems compile p i items).str = p.str := by
  induction items generalizing p i with
  | nil => exact ⟨rfl, rfl⟩
  | cons item items ih =>
    rw [parseItems]
    obtain ⟨h1, h2⟩ := ih (parseItem compile p i item) (i + 1) (Nat.succ_pos i)
    obtain ⟨h3, h4⟩ := parseItem_later compile p i item hi
    exact ⟨h1.trans h3, h2.trans h4⟩

theorem parsePattern_first (compile : Str → Option Regexp) (raw E : Str) (quals : List Str)
    (hs : split raw segmentSep = E :: quals) :
    (parsePattern compile raw).str = E ∧
    (parsePattern compile raw).regex = if E = [] then none else compile (regexSource E) := by
  unfold parsePattern
  have hs' : split raw ['\\', ';'] = E :: quals := hs
  rw [hs', parseItems]
  obtain ⟨h1, h2⟩ := parseItems_later compile quals (parseItem compile ⟨[], none, [], []⟩ 0 E) 1
    Nat.one_pos
  rw [h1, h2]
  unfold parseItem
  by_cases hE : E = []
  · simp [hE]
  · simp only [hE, if_false, Nat.lt_irrefl]
    show _ ∧ _ = compile (regexSource E)
    unfold regexSource
    cases compile ("(?i)".toList ++
      replaceAll (replaceAll (replaceAll E ['\\', '/'] ['/']) ['\\', '\\'] ['\\']) ['/'] ['\\', '/']) with
    | none => exact ⟨rfl, rfl⟩
    | some reg => exact ⟨rfl, rfl⟩

theorem slashesEscaped_replace (s : Str) (prev : Char) :
    slashesEscaped prev (replaceGo ['/'] ['\\', '/'] s 0) = true := by
  induction s generalizing prev with
  | nil => rfl
  | cons c cs ih =>
    by_cases hc : c = '/'
    · subst hc
      simp [replaceGo, hasPrefix, slashesEscaped, ih]
    · have : hasPrefix (c :: cs) ['/'] = false := by simp [hasPrefix, hc]
      simp [replaceGo, this, slashesEscaped, hc, ih]

theorem regexSource_escaped (E : Str) : slashesEscaped ' ' (regexSource E) = true := by
  have h := slashesEscaped_replace
    (replaceAll (replaceAll E ['\\', '/'] ['/']) ['\\', '\\'] ['\\']) ')'
  unfold regexSource
  simpa [slashesEscaped, replaceAll] using h

theorem mapGet_append {β : Type} (m m' : GoMap β) (k : Str) :
    mapGet (m ++ m') k = (mapGet m k).orElse (fun _ => mapGet m' k) := by
  induction m with
  | nil => simp [mapGet]
  | cons e m ih =>
    obtain ⟨a, b⟩ := e
    by_cases hk : a = k
    · simp [mapGet, hk]
    · simp [mapGet, hk, ih]

theorem mapSet_of_absent {β : Type} (m : GoMap β) (k : Str) (v : β) (h : mapGet m k = none) :
    mapSet m k v = m ++ [(k, v)] := by
  induction m with
  | nil => rfl
  | cons e m ih =>
    obtain ⟨a, b⟩ := e
    by_cases hk : a = k
    · simp [mapGet, hk] at h
    · simp only [mapGet, hk, if_false] at h
      simp [mapSet, hk, ih h]

/-- The loop that appends one value to the list of each key, over keys that
are distinct and new: every key gets a list of one value, in order. -/
theorem keyedFold {α β : Type} (g : α → β) (l : List (Str × α)) (acc : GoMap (List β))
    (hnd : (l.map (fun kv => kv.1)).Nodup) (hacc : ∀ kv ∈ l, mapGet acc kv.1 = none) :
    l.foldl (fun acc kv => mapSet acc kv.1 ((mapGet acc kv.1).getD [] ++ [g kv.2])) acc
      = acc ++ l.map (fun kv => (kv.1, [g kv.2])) := by
  induction l generalizing acc with
  | nil => simp
  | cons e l ih =>
    simp only [List.map_cons, List.nodup_cons, List.mem_map, not_exists, not_and] at hnd
    have h0 : mapGet acc e.1 = none := hacc e (by simp)
    rw [List.foldl_cons, h0, mapSet_of_absent acc e.1 _ h0, ih _ hnd.2]
    · simp
    · intro kv hkv
      rw [mapGet_append, hacc kv (List.mem_cons_of_mem _ hkv)]
      have hne : e.1 ≠ kv.1 := fun h => hnd.1 kv hkv h.symm
      simp [mapGet, hne]

theorem mapSet_mapSet {β : Type} (m : GoMap β) (k : Str) (v w : β) :
    mapSet (mapSet m k v) k w = mapSet m k w := by
  induction m with
  | nil => simp [mapSet]
  | cons e m ih =>
    obtain ⟨a, b⟩ := e
    by_cases hk : a = k
    · simp [mapSet, hk]
    · simp [mapSet, hk, ih]

/-- The loop that appends the values `strs` to the list of the key `k`. -/
theorem appendFold {α β : Type} (g : α → β) (k : Str) (strs : List α) (result : GoMap (List β))
    (old : List β) (hold : (mapGet result k).getD [] = old) (a : α) :
    (a :: strs).foldl (fun result str => mapSet result k ((mapGet result k).getD [] ++ [g str])) result
      = mapSet result k (old ++ (a :: strs).map g) := by
  induction strs generalizing result old a with
  | nil => simp [hold]
  | cons b bs ih =>
    rw [List.foldl_cons, hold]
    rw [ih (mapSet result k (old ++ [g a])) (old ++ [g a]) (by simp [mapGet_mapSet]) b]
    rw [mapSet_mapSet]
    simp

theorem mapM_loop_asString (strs : List Str) (acc : List Str) :
    List.mapM.loop Val.asString (strs.map Val.str) acc = some (acc.reverse ++ strs) := by
  induction strs generalizing acc with
  | nil => simp [List.mapM.loop]
  | cons s ss ih =>
    rw [List.map_cons, List.mapM.loop]
    simp only [Val.asString, Option.bind_eq_bind, Option.some_bind]
    rw [ih]
    simp

theorem mapM_asString (strs : List Str) : (strs.map Val.str).mapM Val.asString = some strs := by
  rw [List.mapM, mapM_loop_asString]
  rfl

theorem parsePatterns0_arr (compile : Str → Option Regexp) (s : Str) (strs : List Str) :
    parsePatterns0 compile (.arr ((s :: strs).map Val.str))
      = some [("main".toList, (s :: strs).map (parsePattern compile))] := by
  have h := mapM_asString (s :: strs)
  unfold parsePatterns0 parsedStrings
  simp only [h, Option.map_some']
  unfold compileParsed
  rw [List.foldl_cons, List.foldl_nil]
  rw [appendFold (parsePattern compile) "main".toList strs [] [] rfl s]
  rfl

theorem foldlM_obj (h : GoMap (List Str) → Str → Str → GoMap (List Str)) (o : List (Str × Str))
    (acc : GoMap (List Str)) :
    (o.map (fun kv => (kv.1, Val.str kv.2))).foldlM
        (fun (parsed : GoMap (List Str)) (kv : Str × Val) =>
          (kv.2.asString).map (fun v => h parsed kv.1 v)) acc
      = some (o.foldl (fun parsed kv => h parsed kv.1 kv.2) acc) := by
  induction o generalizing acc with
  | nil => rfl
  | cons e o ih =>
    rw [List.map_cons, List.foldlM_cons]
    exact ih (h acc e.1 e.2)

theorem parsePatterns0_obj (compile : Str → Option Regexp) (o : List (Str × Str))
    (hnd : (o.map (fun kv => kv.1)).Nodup) :
    parsePatterns0 compile (.obj (o.map (fun kv => (kv.1, Val.str kv.2))))
      = some (o.map (fun kv => (kv.1, [parsePattern compile kv.2]))) := by
  unfold parsePatterns0 parsedStrings
  dsimp only
  rw [foldlM_obj (fun parsed k v => mapSet parsed k ((mapGet parsed k).getD [] ++ [v]))]
  have h1 := keyedFold (fun (x : Str) => x) o [] hnd (fun _ _ => rfl)
  simp only at h1
  rw [h1]
  simp only [Option.map_some', List.nil_append]
  unfold compileParsed
  rw [List.foldl_map]
  simp only [List.foldl_cons, List.foldl_nil]
  rw [keyedFold (parsePattern compile) o [] hnd (fun _ _ => rfl)]
  simp

theorem splitGo_ne_nil (sep s : Str) (k : Nat) (acc : Str) : splitGo sep s k acc ≠ [] := by
  induction s generalizing k acc with
  | nil => simp [splitGo]
  | cons c cs ih =>
    cases k with
    | succ k => rw [splitGo]; exact ih k acc
    | zero =>
      rw [splitGo]
      split
      · simp
      · exact ih 0 (c :: acc)

theorem parsePattern_str (compile : Str → Option Regexp) (x : Str) :
    (parsePattern compile x).str = (split x segmentSep).headD [] := by
  cases h : split x segmentSep with
  | nil => exact absurd h (splitGo_ne_nil _ _ _ _)
  | cons E quals => exact (parsePattern_first compile x E quals h).1

/-! ### The claims on pattern compilation -/

/-- C13, at the failing inputs: for the raw string
`edition-(pro|free)\;version:\1?Pro:Free` the version template of the
compiled pattern is `\1?Pro`, the text between the first and the second
colon of the qualifier, and for `foo\;confidence:a:b` the confidence is
`a`. -/
theorem C13_qualifier_cut_at_second_colon :
    (parsePattern exampleCompile "edition-(pro|free)\\;version:\\1?Pro:Free".toList).version
      = "\\1?Pro".toList ∧
    (parsePattern exampleCompile "foo\\;confidence:a:b".toList).confidence = "a".toList := by
  decide

/-- C14: the keys of the compiled patterns.  A single string gives the key
`main` with one pattern; a sequence of one or more strings gives the key
`main` with one pattern per string, in order; the raw text of the pattern of
a string is its first segment; a mapping of distinct keys to strings gives
its own keys, in order, each with the one pattern of its value. -/
theorem C14_keys_of_compiled_patterns (compile : Str → Option Regexp) (s : Str)
    (strs : List Str) (o : List (Str × Str)) (hnd : (o.map (fun kv => kv.1)).Nodup) :
    parsePatterns0 compile (.str s) = some [("main".toList, [parsePattern compile s])] ∧
    parsePatterns0 compile (.arr ((s :: strs).map Val.str))
      = some [("main".toList, (s :: strs).map (parsePattern compile))] ∧
    (∀ x, (parsePattern compile x).str = (split x segmentSep).headD []) ∧
    parsePatterns0 compile (.obj (o.map (fun kv => (kv.1, Val.str kv.2))))
      = some (o.map (fun kv => (kv.1, [parsePattern compile kv.2]))) :=
  ⟨parsePatterns0_str compile s, parsePatterns0_arr compile s strs, parsePattern_str compile,
    parsePatterns0_obj compile o hnd⟩

/-- C14 at a concrete input: the string `foo`, the sequence `foo`, `v(\d)`
and the mapping of `Server` to `foo` and `X-Gen` to the empty string. -/
theorem C14_witness :
    (["Server".toList, "X-Gen".toList] : List Str).Nodup ∧
    (parsePatterns0 exampleCompile (.obj [("Server".toList, .str "foo".toList),
        ("X-Gen".toList, .str [])])).map patternShapes
      = some [("Server".toList, [("foo".toList, true, [], [])]),
          ("X-Gen".toList, [([], false, [], [])])] ∧
    (parsePatterns0 exampleCompile (.str "foo".toList)
        = some [("main".toList, [parsePattern exampleCompile "foo".toList])] ∧
      parsePatterns0 exampleCompile (.arr (("foo".toList :: ["v(\\d)".toList]).map Val.str))
        = some [("main".toList, ("foo".toList :: ["v(\\d)".toList]).map (parsePattern exampleCompile))] ∧
      (∀ x, (parsePattern exampleCompile x).str = (split x segmentSep).headD []) ∧
      parsePatterns0 exampleCompile
          (.obj ([("Server".toList, "foo".toList), ("X-Gen".toList, [])].map
            (fun kv => (kv.1, Val.str kv.2))))
        = some ([("Server".toList, "foo".toList), ("X-Gen".toList, [])].map
            (fun kv => (kv.1, [parsePattern exampleCompile kv.2])))) :=
  ⟨by decide, by rfl, C14_keys_of_compiled_patterns exampleCompile "foo".toList ["v(\\d)".toList]
    [("Server".toList, "foo".toList), ("X-Gen".toList, [])] (by decide)⟩

/-- C15: for a raw string of first segment `E`, the raw text of the pattern
is `E`; when `E` is not empty the regex of the pattern is what the compiler
returns for `regexSource E` (the prefix `(?i)`, then `E` after the three
replacements), whatever the compiler; when `E` is empty the pattern has no
regex.  The source starts with `(?i)` and every slash in it comes right
after a backslash. -/
theorem C15_regex_source (compile : Str → Option Regexp) (raw E : Str) (quals : List Str)
    (hs : split raw segmentSep = E :: quals) :
    (parsePattern compile raw).str = E ∧
    (E ≠ [] → (parsePattern compile raw).regex = compile (regexSource E)) ∧
    (E = [] → (parsePattern compile raw).regex = none) ∧
    hasPrefix (regexSource E) "(?i)".toList = true ∧
    slashesEscaped ' ' (regexSource E) = true := by
  obtain ⟨h1, h2⟩ := parsePattern_first compile raw E quals hs
  refine ⟨h1, fun hE => by rw [h2]; simp [hE], fun hE => by rw [h2]; simp [hE], ?_,
    regexSource_escaped E⟩
  unfold regexSource
  simp [hasPrefix]

/-- C15 at a concrete input: the raw string `https?:\/\/x/y\\z\;version:\1`,
whose regex source is `(?i)https?:\/\/x\/y\z`. -/
theorem C15_witness :
    regexSource "https?:\\/\\/x/y\\\\z".toList = "(?i)https?:\\/\\/x\\/y\\z".toList ∧
    ((parsePattern exampleCompile "https?:\\/\\/x/y\\\\z\\;version:\\1".toList).str
        = "https?:\\/\\/x/y\\\\z".toList ∧
      ("https?:\\/\\/x/y\\\\z".toList ≠ [] →
        (parsePattern exampleCompile "https?:\\/\\/x/y\\\\z\\;version:\\1".toList).regex
          = exampleCompile (regexSource "https?:\\/\\/x/y\\\\z".toList)) ∧
      ("https?:\\/\\/x/y\\\\z".toList = [] →
        (parsePattern exampleCompile "https?:\\/\\/x/y\\\\z\\;version:\\1".toList).regex = none) ∧
      hasPrefix (regexSource "https?:\\/\\/x/y\\\\z".toList) "(?i)".toList = true ∧
      slashesEscaped ' ' (regexSource "https?:\\/\\/x/y\\\\z".toList) = true) :=
  ⟨by decide, C15_regex_source exampleCompile "https?:\\/\\/x/y\\\\z\\;version:\\1".toList
    "https?:\\/\\/x/y\\\\z".toList ["version:\\1".toList] (by decide)⟩

/-! ### Cookie derivation: lemmas -/

theorem splitGo_single (c : Char) (s acc : Str) :
    splitGo [c] s 0 acc = (acc.reverse ++ s.takeWhile (fun x => x != c)) ::
      (match s.dropWhile (fun x => x != c) with
       | [] => []
       | _ :: rest => splitGo [c] rest 0 []) := by
  induction s generalizing acc with
  | nil => simp [splitGo]
  | cons x xs ih =>
    by_cases hx : x = c
    · subst hx
      simp [splitGo, hasPrefix, List.takeWhile, List.dropWhile]
    · have h1 : hasPrefix (x :: xs) [c] = false := by simp [hasPrefix, hx]
      have h2 : (x != c) = true := by simp [hx]
      rw [splitGo, h1]
      simp only [Bool.false_eq_true, if_false]
      rw [ih]
      simp [List.takeWhile, List.dropWhile, h2]

theorem split_single_head (c : Char) (s : Str) :
    (split s [c]).getD 0 [] = s.takeWhile (fun x => x != c) := by
  rw [split, splitGo_single]
  simp

theorem split_single_length (c : Char) (s : Str) :
    decide ((split s [c]).length > 1) = s.contains c := by
  rw [split, splitGo_single]
  cases h : s.dropWhile (fun x => x != c) with
  | nil =>
    have : ∀ x ∈ s, (x != c) = true := by
      intro x hx
      by_contra hc
      have := List.dropWhile_eq_nil_iff.1 h x hx
      exact hc this
    have hn : c ∉ s := by
      intro hc
      have := this c hc
      simp at this
    simp [hn]
  | cons y rest =>
    have hy : y ∈ s.dropWhile (fun x => x != c) := by rw [h]; simp
    have hmem : y ∈ s := (List.dropWhile_sublist _).subset hy
    have hyc : y = c := by
      have := List.head_dropWhile_not (fun x => x != c) s (by rw [h]; simp)
      simp [h] at this
      exact this
    have hc : s.contains c = true := by
      rw [List.contains_iff_exists_mem_beq]
      exact ⟨y, hmem, by simp [hyc]⟩
    have hl : splitGo [c] rest 0 [] ≠ [] := splitGo_ne_nil _ _ _ _
    cases hsp : splitGo [c] rest 0 [] with
    | nil => exact absurd hsp hl
    | cons a b =>
      have hcs : c ∈ s := hyc ▸ hmem
      simp [hsp, hcs]

theorem split_single_second (c : Char) (s : Str) :
    (split s [c]).getD 1 [] = ((s.dropWhile (fun x => x != c)).drop 1).takeWhile (fun x => x != c) := by
  rw [split, splitGo_single]
  cases h : s.dropWhile (fun x => x != c) with
  | nil => simp
  | cons y rest =>
    simp only [List.drop_succ_cons, List.drop_zero]
    have := split_single_head c rest
    rw [split] at this
    simpa using this

/-- The body of the inner loop of the cookie derivation, by `cookiePair`. -/
theorem cookie_step (cookies : GoMap Str) (seg : Str) :
    (if (split seg ['=']).length > 1 then
        mapSet cookies ((split seg ['=']).getD 0 []) ((split seg ['=']).getD 1 [])
      else cookies)
      = match cookiePair seg with
        | some e => mapSet cookies e.1 e.2
        | none => cookies := by
  have h1 := split_single_length '=' seg
  unfold cookiePair
  by_cases hc : seg.contains '=' = true
  · rw [hc] at h1
    have : (split seg ['=']).length > 1 := by simpa using h1
    simp only [this, if_true, hc]
    rw [split_single_head, split_single_second]
  · have hc' : seg.contains '=' = false := by simpa using hc
    rw [hc'] at h1
    have : ¬ (split seg ['=']).length > 1 := by simpa using h1
    simp only [this, if_false, hc', Bool.false_eq_true]

theorem foldl_filterMap_set (segs : List Str) (cookies : GoMap Str) :
    segs.foldl (fun cookies keyValueString =>
        let keyValueSlice := split keyValueString ['=']
        if keyValueSlice.length > 1 then
          mapSet cookies (keyValueSlice.getD 0 []) (keyValueSlice.getD 1 [])
        else cookies) cookies
      = (segs.filterMap cookiePair).foldl (fun m e => mapSet m e.1 e.2) cookies := by
  induction segs generalizing cookies with
  | nil => rfl
  | cons seg segs ih =>
    rw [List.foldl_cons]
    simp only
    rw [cookie_step, ih]
    cases h : cookiePair seg with
    | none => simp [List.filterMap_cons, h]
    | some e => simp [List.filterMap_cons, h]

theorem deriveCookies_eq (headers : GoMap (List Str)) :
    deriveCookies headers = (cookiePairs headers).foldl (fun m e => mapSet m e.1 e.2) [] := by
  unfold deriveCookies cookiePairs
  generalize (mapGet headers "set-cookie".toList).getD [] = values
  generalize ([] : GoMap Str) = init
  induction values generalizing init with
  | nil => rfl
  | cons v vs ih =>
    rw [List.foldl_cons, foldl_filterMap_set, ih]
    simp [List.flatMap_cons, List.foldl_append]

theorem mapGet_setAll (pairs : List (Str × Str)) (m : GoMap Str) (k : Str) :
    mapGet (pairs.foldl (fun m e => mapSet m e.1 e.2) m) k
      = match lastValue pairs k with
        | some v => some v
        | none => mapGet m k := by
  induction pairs generalizing m with
  | nil => rfl
  | cons e ps ih =>
    rw [List.foldl_cons, ih, lastValue]
    cases h : lastValue ps k with
    | some v => rfl
    | none =>
      simp only
      rw [mapGet_mapSet]
      by_cases hk : e.1 = k <;> simp [hk]

/-! ### The claim on cookie derivation -/

/-- C17, in general and at a failing input: the derived cookies hold, for
every key, the value of the last segment of that key, where the value of a
segment is its text between the first `=` and the next `=` (or the end).
For the header value `token=a=b; path=/` the cookie `token` has the value
`a`, not `a=b`. -/
theorem C17_cookie_value_cut_at_second_equals :
    (∀ (headers : GoMap (List Str)) (k : Str),
      mapGet (deriveCookies headers) k = lastValue (cookiePairs headers) k) ∧
    deriveCookies [("set-cookie".toList, ["token=a=b; path=/".toList])]
      = [("token".toList, "a".toList), (" path".toList, "/".toList)] := by
  refine ⟨fun headers k => ?_, by decide⟩
  rw [deriveCookies_eq, mapGet_setAll]
  cases lastValue (cookiePairs headers) k <;> rfl

/-! ### The pass without implications: lemmas -/

theorem mapDelete_of_absent {β : Type} (m : GoMap β) (k : Str) (h : mapGet m k = none) :
    mapDelete m k = m := by
  induction m with
  | nil => rfl
  | cons e m ih =>
    obtain ⟨a, b⟩ := e
    by_cases hk : a = k
    · simp [mapGet, hk] at h
    · simp only [mapGet, hk, if_false] at h
      have := ih h
      unfold mapDelete at this ⊢
      simp [List.filter, hk, this]

theorem resolveExcludes_of_absent (det : Detected) (v : Val) (hw : wfRel v = true)
    (h : ∀ x ∈ relNames v, mapGet det x = none) : resolveExcludes det v = some det := by
  cases v with
  | str s =>
    have := h s (by simp [relNames])
    simp [resolveExcludes, mapDelete_of_absent det s this]
  | arr l =>
    simp only [resolveExcludes]
    simp only [relNames] at h
    simp only [wfRel] at hw
    induction l with
    | nil => rfl
    | cons v vs ih =>
      simp only [List.all_cons, Bool.and_eq_true] at hw
      obtain ⟨s, hs⟩ := Option.isSome_iff_exists.1 hw.1
      have h0 : mapGet det s = none := h s (by simp [List.filterMap_cons, hs])
      rw [List.foldlM_cons]
      simp only [hs, Option.map_some', mapDelete_of_absent det s h0, Option.bind_eq_bind,
        Option.some_bind]
      exact ih hw.2 (fun x hx => h x (by simp [List.filterMap_cons, hs, hx]))
  | null => rfl
  | obj o => rfl
  | other => rfl

theorem resolveImplies_of_none (apps : GoMap application) (det : Detected) (v : Val)
    (hw : wfRel v = true) (h : relNames v = []) : resolveImplies apps det v = some det := by
  cases v with
  | str s => simp [relNames] at h
  | arr l =>
    cases l with
    | nil => rfl
    | cons x xs =>
      simp only [wfRel, List.all_cons, Bool.and_eq_true] at hw
      obtain ⟨s, hs⟩ := Option.isSome_iff_exists.1 hw.1
      simp [relNames, List.filterMap_cons, hs] at h
  | null => rfl
  | obj o => rfl
  | other => rfl

theorem resolveStep_excludesOnly (apps : GoMap application) (d : Detected) (name : Str)
    (hH : ∀ n r, mapGet d n = some r →
      wfRel r.excludes = true ∧ wfRel r.implies = true ∧ relNames r.implies = []) :
    ∃ d', resolveStep apps d name = some d' ∧
      ∀ k, mapGet d' k =
        match mapGet d name with
        | some r => if k ∈ relNames r.excludes then none else mapGet d k
        | none => mapGet d k := by
  unfold resolveStep
  cases hr : mapGet d name with
  | none => exact ⟨d, rfl, fun k => rfl⟩
  | some r =>
    obtain ⟨hwe, hwi, hni⟩ := hH name r hr
    obtain ⟨d1, e1, s1⟩ := resolveExcludes_spec r.excludes hwe d
    refine ⟨d1, ?_, s1⟩
    simp only [guard_excludes, guard_implies]
    rw [e1]
    exact resolveImplies_of_none apps d1 r.implies hwi hni

/-- The pass over a result set without implications: it ends; every entry
left was there before; an entry that is gone was excluded by an entry of the
start; the exclusions of a visited entry that is left are absent. -/
theorem excludePass_spec (apps : GoMap application) (order : List Str) (d : Detected)
    (hH : ∀ n r, mapGet d n = some r →
      wfRel r.excludes = true ∧ wfRel r.implies = true ∧ relNames r.implies = []) :
    ∃ out, resolvePass apps d order = some out ∧
      (∀ k r, mapGet out k = some r → mapGet d k = some r) ∧
      (∀ k, mapGet out k = mapGet d k ∨
        (mapGet out k = none ∧ ∃ n r, mapGet d n = some r ∧ k ∈ relNames r.excludes)) ∧
      (∀ k ∈ order, ∀ r, mapGet out k = some r → ∀ x ∈ relNames r.excludes, mapGet out x = none) := by
  unfold resolvePass
  induction order generalizing d with
  | nil =>
    exact ⟨d, rfl, fun _ _ h => h, fun _ => Or.inl rfl, fun k hk => by simp at hk⟩
  | cons n rest ih =>
    obtain ⟨d1, e1, s1⟩ := resolveStep_excludesOnly apps d n hH
    have sub1 : ∀ k r, mapGet d1 k = some r → mapGet d k = some r := by
      intro k r hk
      rw [s1 k] at hk
      cases hn : mapGet d n with
      | none => simpa [hn] using hk
      | some rn =>
        simp only [hn] at hk
        by_cases hx : k ∈ relNames rn.excludes
        · simp [hx] at hk
        · simpa [hx] using hk
    obtain ⟨out, e2, sub2, ch2, vis2⟩ := ih d1 (fun m r hm => hH m r (sub1 m r hm))
    have gone : ∀ x, mapGet d1 x = none → mapGet out x = none := by
      intro x hx
      cases ho : mapGet out x with
      | none => rfl
      | some r => rw [sub2 x r ho] at hx; cases hx
    refine ⟨out, by simp [List.foldlM, e1, e2], fun k r hk => sub1 k r (sub2 k r hk), ?_, ?_⟩
    · intro k
      rcases ch2 k with h | ⟨h, m, r, hm, hk⟩
      · rw [h, s1 k]
        cases hn : mapGet d n with
        | none => exact Or.inl rfl
        | some rn =>
          simp only
          by_cases hx : k ∈ relNames rn.excludes
          · right
            exact ⟨by simp [hx], n, rn, hn, hx⟩
          · left; simp [hx]
      · exact Or.inr ⟨h, m, r, sub1 m r hm, hk⟩
    · intro k hk r hr x hx
      simp only [List.mem_cons] at hk
      rcases hk with hk | hk
      · subst hk
        have hd : mapGet d k = some r := sub1 k r (sub2 k r hr)
        apply gone
        rw [s1 x]
        simp [hd, hx]
      · exact vis2 k hk r hr x hx

/-! ### The claim on the repetition of the pass -/

/-- C11: for a result set in which no entry declares an implication (and
the `excludes` are names or sequences of names), the exclude/imply pass,
over an order that visits every entry, ends with a set `out`, and the pass
over `out`, in any order, ends with `out` again: the same entries. -/
theorem C11_second_pass_changes_nothing (apps : GoMap application) (det : Detected) (order1 order2 : List Str)
    (hH : ExcludesOnly det) (hv : VisitsAll det order1) :
    ∃ out, resolvePass apps det order1 = some out ∧ resolvePass apps out order2 = some out := by
  have hH' : ∀ n r, mapGet det n = some r →
      wfRel r.excludes = true ∧ wfRel r.implies = true ∧ relNames r.implies = [] :=
    fun n r h => hH (n, r) (mapGet_mem det n r h)
  obtain ⟨out, e, sub, _, vis⟩ := excludePass_spec apps order1 det hH'
  refine ⟨out, e, ?_⟩
  unfold resolvePass
  apply foldlM_fixed
  intro n _
  unfold resolveStep
  cases hr : mapGet out n with
  | none => rfl
  | some r =>
    have hd := sub n r hr
    obtain ⟨hwe, hwi, hni⟩ := hH' n r hd
    have hin : n ∈ order1 := hv (n, r) (mapGet_mem det n r hd)
    simp only [guard_excludes, guard_implies]
    rw [resolveExcludes_of_absent out r.excludes hwe (vis n hin r hr)]
    exact resolveImplies_of_none apps out r.implies hwi hni

/-- C11 at a concrete input: `A` excludes `B`, both are matched; the first
pass visits `B` then `A`, the second `A` then `B`. -/
theorem C11_witness :
    ∃ out, resolvePass catalogExcl (allMatched catalogExcl) ["B".toList, "A".toList] = some out ∧
      resolvePass catalogExcl out ["A".toList, "B".toList] = some out :=
  C11_second_pass_changes_nothing catalogExcl (allMatched catalogExcl) ["B".toList, "A".toList] ["A".toList, "B".toList]
    (by decide) (by decide)

/-! ### The claim on presence-only header patterns -/

/-- C2: a technology of the catalog whose only declared pattern is a
presence-only pattern for the header `H` (the url is empty; no html, cookies
or scripts patterns) is in the result set of the detection phase if and only
if the headers of the page have the key made of the characters of `H`, each
mapped by `unicode.ToLower` (`lowerRune`), whatever the values of that
header.  The catalog `apps` holds distinct names; `cache` is the cache that
`Init` built over technologies of distinct names, this one among them. -/
theorem C2_presence_header_detected_iff (lowerRune : Char → Char)
    (compile : Str → Option Regexp) (inits : List application) (cache : Cache)
    (apps : GoMap application) (app : application) (H : Str) (httpdata : HttpData)
    (scripts : List Str)
    (hc : initCache compile inits = some cache)
    (hin : (inits.map (fun a => a.Name)).Nodup) (hi : app ∈ inits)
    (hnd : (apps.map (fun kv => kv.2.Name)).Nodup) (hmem : app ∈ apps.map (fun kv => kv.2))
    (hH : app.Headers = .obj [(H, .str [])]) (hU : app.URL = [])
    (hHTML : app.HTML = .null) (hC : app.Cookies = .null) (hS : app.Scripts = .null) :
    ∃ det, detect lowerRune cache apps httpdata scripts = some det ∧
      (mapHas det app.Name = true ↔ mapHas httpdata.Headers (H.map lowerRune) = true) := by
  obtain ⟨c, hc1, hg⟩ := getPatterns_of_initCache compile inits cache app hc hin hi
  rw [signalPatterns_presence_header compile app H hH hU hHTML hC hS] at hc1
  simp only [Option.some.injEq] at hc1
  subst hc1
  have hurl : getPatterns cache app "url".toList = [("main".toList, [⟨[], none, [], []⟩])] := by
    rw [hg]; rfl
  have hhd : getPatterns cache app "headers".toList = [(H, [⟨[], none, [], []⟩])] := by
    rw [hg]; rfl
  apply detect_entry lowerRune cache httpdata scripts app
    (fun r => r.isSome = true ↔ mapHas httpdata.Headers (H.map lowerRune) = true) _ apps hnd hmem
  intro det hdet
  have e1 : analyzeURL cache app httpdata.Url det = some det := by
    unfold analyzeURL; rw [hurl]; rfl
  have e2 : analyzeApp lowerRune cache httpdata scripts (deriveCookies httpdata.Headers) det app
      = headerStep app httpdata.Headers (H.map lowerRune) det ⟨[], none, [], []⟩ := by
    unfold analyzeApp
    rw [e1, hHTML, hH, hC, hS]
    unfold analyzeHeaders
    rw [hhd]
    simp [Val.notNil, List.foldlM, toLower]
  rw [e2]
  unfold headerStep
  cases hh : mapGet httpdata.Headers (H.map lowerRune) with
  | none =>
    refine ⟨det, rfl, ?_⟩
    simp [hdet, mapHas, hh]
  | some sl =>
    refine ⟨mapSet det app.Name (newResult app), ?_, ?_⟩
    · exact foldlM_fixed _ _ _ (fun x _ => matchValue_presence app _ x)
    · simp [mapGet_mapSet, mapHas, hh]

/-- C2 at concrete inputs: the technology `Srv` has a presence-only pattern
for the header `X-Powered-By`, whose lower-cased name is `x-powered-by`.  It
is detected on a page that has the header `x-powered-by` with an empty list
of values; it is not detected on a page whose only header key is
`X-Powered-By`, nor on a page where `x-powered-by` is a value of the header
`server`. -/
theorem C2_witness :
    "X-Powered-By".toList.map Char.toLower = "x-powered-by".toList ∧
    detectExample [techServer] ⟨[], [("x-powered-by".toList, [])], []⟩ []
      = some [("Srv".toList, [])] ∧
    detectExample [techServer] ⟨[], [("X-Powered-By".toList, ["PHP".toList])], []⟩ [] = some [] ∧
    detectExample [techServer] ⟨[], [("server".toList, ["x-powered-by".toList])], []⟩ [] = some [] ∧
    initCache exampleCompile [techServer] = some (cacheOf [techServer]) ∧
    ∃ det, detect Char.toLower (cacheOf [techServer]) [("Srv".toList, techServer)]
        ⟨[], [("x-powered-by".toList, [])], []⟩ [] = some det ∧
      (mapHas det techServer.Name = true ↔
        mapHas [("x-powered-by".toList, ([] : List Str))]
          ("X-Powered-By".toList.map Char.toLower) = true) :=
  ⟨by decide, by decide, by decide, by decide, rfl,
    C2_presence_header_detected_iff Char.toLower exampleCompile [techServer] (cacheOf [techServer])
    [("Srv".toList, techServer)] techServer "X-Powered-By".toList
    ⟨[], [("x-powered-by".toList, [])], []⟩ [] rfl (by decide) (List.Mem.head _) (by decide)
    (List.Mem.head _) rfl rfl rfl rfl rfl⟩

/-! ### The claims on ternary templates and on categories -/

theorem decimalInt_toString (c : Int) : decimalInt c = (toString c).toList := by
  cases c with
  | ofNat k => rfl
  | negSucc k => rfl

/-- C5, at the failing inputs: the technology has the url pattern of raw
text `edition-(pro|free)\;version:\1?Pro:Free`.  On the page of url
`edition-pro` the detection phase reports it with the version `pro?Pro`, on
the page of url `edition-free` with the version `free?Pro`: neither is `Pro`.
The ternary step of `detectVersion` changes no template: for every version
text, capture index and capture, the body of the loop is the replacement of
the backreference token alone. -/
theorem C5_ternary_not_resolved :
    detectExample [techEdition] ⟨"edition-pro".toList, [], []⟩ []
      = some [("Ed".toList, "pro?Pro".toList)] ∧
    detectExample [techEdition] ⟨"edition-free".toList, [], []⟩ []
      = some [("Ed".toList, "free?Pro".toList)] ∧
    (∀ (version : Str) (i : Nat) (m : Str),
      substCapture version i m = replaceAllString (backref i) version m) :=
  ⟨by decide, by decide, substCapture_eq⟩

/-- C16: `parseCategories` appends to the categories of the technology the
names of the ids of `Cats` that are keys of the table, in the order of
`Cats`, duplicates kept; ids that are not in the table add nothing, so the
number of names added is the number of known ids.  The key of an id is its
decimal text (`decimalInt`, the text `toString` gives: `11` for eleven, `-2`
for minus two).  At a concrete input: the table has the ids `1` (`CMS`), `11`
(`Blogs`) and `-2` (`Odd`); the technology has the category `Base` and the
ids 11, 7, 1, 11, -2; its categories become `Base`, `Blogs`, `CMS`, `Blogs`,
`Odd`. -/
theorem C16_parseCategories_appends_known_names :
    (∀ (app : application) (categories : GoMap category),
      (parseCategories app categories).Categories
        = app.Categories ++ app.Cats.filterMap
            (fun c => (mapGet categories (toString c).toList).map (fun d => d.Name)) ∧
      (parseCategories app categories).Categories.length
        = app.Categories.length +
          (app.Cats.filter (fun c => mapHas categories (toString c).toList)).length) ∧
    (∀ c : Int, decimalInt c = (toString c).toList) ∧
    decimalInt 11 = "11".toList ∧ decimalInt 0 = "0".toList ∧ decimalInt (-2) = "-2".toList ∧
    (parseCategories techCats exampleCategories).Categories
      = ["Base".toList, "Blogs".toList, "CMS".toList, "Blogs".toList, "Odd".toList] := by
  refine ⟨fun app categories => ?_, decimalInt_toString, by decide, by decide, by decide, by decide⟩
  have old : (parseCategories app categories).Categories
        = app.Categories ++ app.Cats.filterMap
            (fun c => (mapGet categories (decimalInt c)).map (fun d => d.Name)) ∧
      (parseCategories app categories).Categories.length
        = app.Categories.length +
          (app.Cats.filter (fun c => mapHas categories (decimalInt c))).length := by
    have h := parseCategories_fold categories app.Cats app
    refine ⟨h, ?_⟩
    unfold parseCategories
    rw [h, List.length_append]
    congr 1
    generalize app.Cats = cats
    induction cats with
    | nil => rfl
    | cons c cs ih =>
      cases hc : mapGet categories (decimalInt c) with
      | none => simp [List.filterMap_cons, List.filter_cons, mapHas, hc, ih]
      | some d => simp [List.filterMap_cons, List.filter_cons, mapHas, hc, ih]
  simp only [decimalInt_toString] at old
  exact old

/-! ### The claim on implication -/

/-- C10: in a result set whose entries stem from the catalog, let the entry
of `A` declare `implies P`, `P` be the technology `pApp` of the catalog, and
no technology of the catalog exclude `A` or `P`.  Then the exclude/imply pass
ends, whatever the order of the visits, with a set that contains `A` and has
an entry under `P`.  When `P` had no entry, its entry carries the name, the
declared version and the categories of `pApp`, and its `excludes` and
`implies`; when `P` had an entry, that entry is kept as it was. -/
theorem C10_implication_adds_implied (apps : GoMap application) (det : Detected) (order : List Str) (A P : Str)
    (rA : resultApp) (pApp : application)
    (hkey : ∀ kv ∈ apps, kv.2.Name = kv.1)
    (hwf : ∀ kv ∈ apps, wfRel kv.2.Excludes = true ∧ wfRel kv.2.Implies = true)
    (hcat : FromCatalog apps det)
    (hA : mapGet det A = some rA) (himp : P ∈ relNames rA.implies)
    (hP : mapGet apps P = some pApp)
    (hnoA : ∀ kv ∈ apps, A ∉ relNames kv.2.Excludes)
    (hnoP : ∀ kv ∈ apps, P ∉ relNames kv.2.Excludes)
    (hord : A ∈ order) :
    ∃ out, resolvePass apps det order = some out ∧ mapHas out A = true ∧
      mapHas out P = true ∧
      (mapGet det P = none → ∃ rP, mapGet out P = some rP ∧ rP.Name = pApp.Name ∧
        rP.Version = pApp.Version ∧ rP.Categories = pApp.Categories ∧
        rP.excludes = pApp.Excludes ∧ rP.implies = pApp.Implies) ∧
      (∀ r, mapGet det P = some r → mapGet out P = some r) := by
  have key : ∀ (order : List Str) (d : Detected), FromCatalog apps d → mapGet d A = some rA →
      (mapGet d P = mapGet det P ∨ (mapGet det P = none ∧ mapGet d P = some (newResult pApp))) →
      (A ∈ order ∨ (mapGet d P).isSome = true) →
      ∃ out, order.foldlM (resolveStep apps) d = some out ∧ mapGet out A = some rA ∧
        (mapGet out P = mapGet det P ∨ (mapGet det P = none ∧ mapGet out P = some (newResult pApp))) ∧
        (mapGet out P).isSome = true := by
    intro order
    induction order with
    | nil =>
      intro d _ hA hX hB
      simp only [List.not_mem_nil, false_or] at hB
      exact ⟨d, rfl, hA, hX, hB⟩
    | cons name rest ih =>
      intro d hcat hA hX hB
      obtain ⟨det1, det', e, hcat', s1, s2, s3⟩ := resolveStep_spec apps hkey hwf d hcat name
      have a1 : mapGet det1 A = some rA := by
        rcases s1 A with h | ⟨_, kv, hkv, h⟩
        · rw [h, hA]
        · exact absurd h (hnoA kv hkv)
      have a2 : mapGet det' A = some rA := by
        rcases s2 A with h | ⟨h, _⟩
        · rw [h, a1]
        · rw [a1] at h; simp at h
      have p1 : mapGet det1 P = mapGet d P := by
        rcases s1 P with h | ⟨_, kv, hkv, h⟩
        · exact h
        · exact absurd h (hnoP kv hkv)
      have p2 : mapGet det' P = mapGet d P ∨
          (mapGet d P = none ∧ mapGet det' P = some (newResult pApp)) := by
        rcases s2 P with h | ⟨h, _, a, ha, h'⟩
        · exact Or.inl (h.trans p1)
        · right
          rw [hP] at ha
          simp only [Option.some.injEq] at ha
          subst ha
          exact ⟨by rw [← p1]; exact h, h'⟩
      have hX' : mapGet det' P = mapGet det P ∨
          (mapGet det P = none ∧ mapGet det' P = some (newResult pApp)) := by
        rcases p2 with h | ⟨h, h'⟩
        · rw [h]; exact hX
        · right
          refine ⟨?_, h'⟩
          rcases hX with hx | ⟨hx, _⟩
          · rw [← hx]; exact h
          · exact hx
      have keep : (mapGet d P).isSome = true → (mapGet det' P).isSome = true := by
        intro hs
        rcases p2 with h | ⟨h, _⟩
        · rw [h]; exact hs
        · rw [h] at hs; simp at hs
      have step : A ∈ rest ∨ (mapGet det' P).isSome = true := by
        rcases hB with hB | hB
        · simp only [List.mem_cons] at hB
          rcases hB with hB | hB
          · subst hB
            exact Or.inr ((s3 rA hA).2 P himp pApp hP)
          · exact Or.inl hB
        · exact Or.inr (keep hB)
      obtain ⟨out, e', o1, o2, o3⟩ := ih det' hcat' a2 hX' step
      exact ⟨out, by simp [List.foldlM, e, e'], o1, o2, o3⟩
  obtain ⟨out, e, o1, o2, o3⟩ := key order det hcat hA (Or.inl rfl) (Or.inl hord)
  refine ⟨out, e, by simp [mapHas, o1], o3, fun hn => ?_, fun r hr => ?_⟩
  · rcases o2 with h | ⟨_, h⟩
    · rw [h, hn] at o3; simp at o3
    · exact ⟨newResult pApp, h, rfl, rfl, rfl, rfl, rfl⟩
  · rcases o2 with h | ⟨h, _⟩
    · rw [h, hr]
    · rw [hr] at h; simp at h

/-- C10 at a concrete input: `WordPress` implies `PHP`, whose catalog data
are the version `8` and the category `Languages`.  With only `WordPress`
matched, the pass ends with the entries `WordPress` and `PHP`, the latter
with the version `8` and the category `Languages`; with `PHP` matched too,
at the version `7`, its entry keeps the version `7`. -/
theorem C10_witness :
    (resolvePass catalogImpl (allMatched [("WordPress".toList, techWordPress)])
        ["WordPress".toList]).map (fun out => out.map (fun e => (e.1, e.2.Version, e.2.Categories)))
      = some [("WordPress".toList, [], []), ("PHP".toList, "8".toList, ["Languages".toList])] ∧
    (resolvePass catalogImpl
        [("PHP".toList, ⟨"PHP".toList, "7".toList, [], .null, .null⟩),
         ("WordPress".toList, newResult techWordPress)]
        ["PHP".toList, "WordPress".toList]).map versionsOf
      = some [("PHP".toList, "7".toList), ("WordPress".toList, [])] ∧
    mapGet (allMatched [("WordPress".toList, techWordPress)]) "PHP".toList = none ∧
    ∃ out, resolvePass catalogImpl (allMatched [("WordPress".toList, techWordPress)])
        ["WordPress".toList] = some out ∧
      mapHas out "WordPress".toList = true ∧ mapHas out "PHP".toList = true ∧
      (mapGet (allMatched [("WordPress".toList, techWordPress)]) "PHP".toList = none →
        ∃ rP, mapGet out "PHP".toList = some rP ∧ rP.Name = techPHP.Name ∧
          rP.Version = techPHP.Version ∧ rP.Categories = techPHP.Categories ∧
          rP.excludes = techPHP.Excludes ∧ rP.implies = techPHP.Implies) ∧
      (∀ r, mapGet (allMatched [("WordPress".toList, techWordPress)]) "PHP".toList = some r →
        mapGet out "PHP".toList = some r) :=
  ⟨by decide, by decide, rfl,
    C10_implication_adds_implied catalogImpl (allMatched [("WordPress".toList, techWordPress)])
    ["WordPress".toList] "WordPress".toList "PHP".toList (newResult techWordPress) techPHP
    (by decide) (by decide)
    (fromCatalog_allMatched catalogImpl _ (fun kv h => by
      rw [List.mem_singleton.1 h]; exact List.Mem.head _))
    rfl (by decide) rfl (by decide) (by decide) (by decide)⟩

/-! ### Qualifiers and the compiler: lemmas -/

theorem parseItem_qualifiers (compile compile' : Str → Option Regexp) (p q : pattern) (i : Nat)
    (item : Str) (hv : p.version = q.version) (hc : p.confidence = q.confidence) :
    (parseItem compile p i item).version = (parseItem compile' q i item).version ∧
    (parseItem compile p i item).confidence = (parseItem compile' q i item).confidence := by
  unfold parseItem
  by_cases h : item = []
  · simp [h, hv, hc]
  · simp only [h, if_false]
    by_cases hi : i > 0
    · simp only [hi, if_true]
      split
      · split
        · exact ⟨rfl, hc⟩
        · exact ⟨hv, rfl⟩
      · exact ⟨hv, hc⟩
    · simp only [hi, if_false]
      cases compile ("(?i)".toList ++ replaceAll (replaceAll (replaceAll item ['\\', '/'] ['/'])
          ['\\', '\\'] ['\\']) ['/'] ['\\', '/']) <;>
        cases compile' ("(?i)".toList ++ replaceAll (replaceAll (replaceAll item ['\\', '/'] ['/'])
          ['\\', '\\'] ['\\']) ['/'] ['\\', '/']) <;> exact ⟨hv, hc⟩

theorem parseItems_qualifiers (compile compile' : Str → Option Regexp) (items : List Str)
    (p q : pattern) (i : Nat) (hv : p.version = q.version) (hc : p.confidence = q.confidence) :
    (parseItems compile p i items).version = (parseItems compile' q i items).version ∧
    (parseItems compile p i items).confidence = (parseItems compile' q i items).confidence := by
  induction items generalizing p q i with
  | nil => exact ⟨hv, hc⟩
  | cons item items ih =>
    rw [parseItems, parseItems]
    obtain ⟨h1, h2⟩ := parseItem_qualifiers compile compile' p q i item hv hc
    exact ih _ _ _ h1 h2

theorem parsePattern_qualifiers (compile compile' : Str → Option Regexp) (raw : Str) :
    (parsePattern compile raw).version = (parsePattern compile' raw).version ∧
    (parsePattern compile raw).confidence = (parsePattern compile' raw).confidence :=
  parseItems_qualifiers compile compile' _ _ _ 0 rfl rfl

/-! ### The claim on expressions that do not compile -/

/-- C12, amended: a raw string whose non-empty match expression `E` fails to
compile still gives a pattern, with the raw text `E` and without regex; its
version template and its confidence are those its qualifiers give under any
compiler (`compile'`, for instance one that accepts `E`).  The pattern stands
at its place in the result of `parsePatterns0`: alone under `main` for a
single string; among the patterns of the other strings, in order, under
`main` for a sequence; under its own key, among the other keys, for a
mapping.  The patterns of the other strings and keys are those of their own
strings. -/
theorem C12_failed_compile_keeps_pattern (compile compile' : Str → Option Regexp) (raw E : Str)
    (quals : List Str) (before after : List Str) (k : Str) (o1 o2 : List (Str × Str))
    (hs : split raw segmentSep = E :: quals) (hE : E ≠ [])
    (hfail : compile (regexSource E) = none)
    (hnd : ((o1 ++ (k, raw) :: o2).map (fun kv => kv.1)).Nodup) :
    ((parsePattern compile raw).regex = none ∧ (parsePattern compile raw).str = E ∧
      (parsePattern compile raw).version = (parsePattern compile' raw).version ∧
      (parsePattern compile raw).confidence = (parsePattern compile' raw).confidence) ∧
    parsePatterns0 compile (.str raw) = some [("main".toList, [parsePattern compile raw])] ∧
    parsePatterns0 compile (.arr ((before ++ raw :: after).map Val.str))
      = some [("main".toList, before.map (parsePattern compile) ++
          parsePattern compile raw :: after.map (parsePattern compile))] ∧
    parsePatterns0 compile (.obj ((o1 ++ (k, raw) :: o2).map (fun kv => (kv.1, Val.str kv.2))))
      = some (o1.map (fun kv => (kv.1, [parsePattern compile kv.2])) ++
          (k, [parsePattern compile raw]) :: o2.map (fun kv => (kv.1, [parsePattern compile kv.2]))) := by
  obtain ⟨h1, h2⟩ := parsePattern_first compile raw E quals hs
  obtain ⟨h3, h4⟩ := parsePattern_qualifiers compile compile' raw
  refine ⟨⟨by rw [h2]; simp [hE, hfail], h1, h3, h4⟩, parsePatterns0_str compile raw, ?_, ?_⟩
  · cases before with
    | nil => exact parsePatterns0_arr compile raw after
    | cons b bs =>
      have := parsePatterns0_arr compile b (bs ++ raw :: after)
      simpa using this
  · have := parsePatterns0_obj compile (o1 ++ (k, raw) :: o2) hnd
    simpa using this

/-- C12, amended, at a concrete input: the raw string `(` followed by a
version qualifier, whose expression does not compile; its pattern has the
raw text `(`, no regex and the version template `\1`.  It is the second
pattern of the sequence `foo`, `(\;version:\1` and the pattern of the key
`Server` in the mapping of `X-Gen` to `foo` and `Server` to
`(\;version:\1`. -/
theorem C12_witness :
    split "(\\;version:\\1".toList segmentSep = ["(".toList, "version:\\1".toList] ∧
    (parsePatterns0 exampleCompile (.obj [("X-Gen".toList, .str "foo".toList),
        ("Server".toList, .str "(\\;version:\\1".toList)])).map patternShapes
      = some [("X-Gen".toList, [("foo".toList, true, [], [])]),
          ("Server".toList, [("(".toList, false, "\\1".toList, [])])] ∧
    ((parsePattern exampleCompile "(\\;version:\\1".toList).regex = none ∧
      (parsePattern exampleCompile "(\\;version:\\1".toList).str = "(".toList ∧
      (parsePattern exampleCompile "(\\;version:\\1".toList).version
        = (parsePattern (fun _ => some (reFoo.toRegexp 0)) "(\\;version:\\1".toList).version ∧
      (parsePattern exampleCompile "(\\;version:\\1".toList).confidence
        = (parsePattern (fun _ => some (reFoo.toRegexp 0)) "(\\;version:\\1".toList).confidence) ∧
    parsePatterns0 exampleCompile (.str "(\\;version:\\1".toList)
      = some [("main".toList, [parsePattern exampleCompile "(\\;version:\\1".toList])] ∧
    parsePatterns0 exampleCompile
        (.arr ((["foo".toList] ++ "(\\;version:\\1".toList :: []).map Val.str))
      = some [("main".toList, ["foo".toList].map (parsePattern exampleCompile) ++
          parsePattern exampleCompile "(\\;version:\\1".toList ::
            ([] : List Str).map (parsePattern exampleCompile))] ∧
    parsePatterns0 exampleCompile
        (.obj (([("X-Gen".toList, "foo".toList)] ++ ("Server".toList, "(\\;version:\\1".toList) :: []).map
          (fun kv => (kv.1, Val.str kv.2))))
      = some ([("X-Gen".toList, "foo".toList)].map
            (fun kv => (kv.1, [parsePattern exampleCompile kv.2])) ++
          ("Server".toList, [parsePattern exampleCompile "(\\;version:\\1".toList]) ::
            ([] : List (Str × Str)).map (fun kv => (kv.1, [parsePattern exampleCompile kv.2]))) :=
  ⟨by decide, by rfl,
    C12_failed_compile_keeps_pattern exampleCompile (fun _ => some (reFoo.toRegexp 0))
      "(\\;version:\\1".toList "(".toList ["version:\\1".toList] ["foo".toList] []
      "Server".toList [("X-Gen".toList, "foo".toList)] [] (by decide) (by decide) rfl (by decide)⟩

/-- C12 as stated fails: for the sequence of the raw strings `(` and `foo`,
of which the first does not compile, `parsePatterns0` gives two patterns
under `main`; the first is the pattern of `(`, with raw text `(` and no
regex: it is not dropped.  In a mapping the pattern that is kept is seen by
the detection: the technology whose headers pattern for `Server` is `(` is
reported on every page that has the header `server`, and on no page without
it. -/
theorem C12_counterexample :
    (parsePatterns0 exampleCompile (.arr [.str "(".toList, .str "foo".toList])).map patternShapes
      = some [("main".toList, [("(".toList, false, [], []), ("foo".toList, true, [], [])])] ∧
    (parsePatterns0 exampleCompile (.obj [("Server".toList, .str "(".toList)])).map patternShapes
      = some [("Server".toList, [("(".toList, false, [], [])])] ∧
    detectExample [techBadHeader] ⟨[], [("server".toList, ["nginx".toList])], []⟩ []
      = some [("Bad".toList, [])] ∧
    detectExample [techBadHeader] ⟨[], [("date".toList, ["today".toList])], []⟩ [] = some [] := by
  refine ⟨by rfl, by rfl, by decide, by decide⟩

/-! ### Captures that are taken verbatim: lemmas -/

theorem expand_dollar (whole t : Str) (n : Nat) (h : noReference t = true) :
    expand whole (n + 1) ('$' :: t) = '$' :: expand whole n t := by
  cases t with
  | nil =>
    rw [expand.eq_5 whole n [] (fun t1 h1 => by cases h1) (fun t1 h1 => by cases h1)]
    simp
  | cons c t1 =>
    simp only [noReference, Bool.and_eq_true, Bool.or_eq_true, bne_iff_ne, ne_eq,
      Bool.not_eq_true', decide_eq_true_eq] at h
    obtain ⟨⟨⟨_, hname⟩, hd⟩, hbrace⟩ := h
    by_cases hb : c = '{'
    · subst hb
      rw [expand.eq_4]
      by_cases hn : (List.takeWhile isNameChar t1).isEmpty = true
      · simp [hn]
      · simp only [hn, Bool.false_eq_true, if_false]
        rcases hbrace with hbrace | hbrace
        · exact absurd rfl hbrace
        · cases hdw : List.dropWhile isNameChar t1 with
          | nil => rfl
          | cons d rest =>
            rw [hdw] at hbrace
            simp only [Bool.and_eq_true, Bool.or_eq_true, bne_iff_ne, ne_eq,
              decide_eq_true_eq] at hbrace
            rcases hbrace.2 with hne | hne
            · split
              · rename_i heq
                simp only [List.cons.injEq] at heq
                exact absurd heq.1 hne
              · rfl
            · exact absurd hne hn
    · rw [expand.eq_5 whole n (c :: t1)
        (fun t2 h2 => by simp only [List.cons.injEq] at h2; exact hd h2.1)
        (fun t2 h2 => by simp only [List.cons.injEq] at h2; exact hb h2.1)]
      simp [List.takeWhile, hname]

theorem expand_of_inert (whole m : Str) (n : Nat) (hn : m.length < n)
    (h : dollarsInert m = true) : expand whole n m = m := by
  induction m generalizing n with
  | nil => cases n <;> simp [expand]
  | cons c cs ih =>
    cases n with
    | zero => simp at hn
    | succ k =>
      have hk : cs.length < k := by simp at hn; omega
      simp only [dollarsInert, Bool.and_eq_true, Bool.or_eq_true, bne_iff_ne, ne_eq] at h
      by_cases hc : c = '$'
      · subst hc
        rcases h.1 with h1 | h1
        · exact absurd rfl h1
        · rw [expand_dollar whole cs k h1, ih k hk h.2]
      · rw [expand.eq_6 whole k c cs hc, ih k hk h.2]

theorem substSlices_template_one (m0 m1 : Str) (ms : List Str) (more : List (List Str))
    (hd : dollarsInert m1 = true)
    (hno : ∀ sl ∈ (m0 :: m1 :: ms) :: more, ∀ i, i < sl.length → ¬ backref i <:+: m1) :
    substSlices ['\\', '1'] ((m0 :: m1 :: ms) :: more) = m1 := by
  have hb0 : backref 0 = ['\\', '0'] := by decide
  have hb1 : backref 1 = ['\\', '1'] := by decide
  have h0 : substCapture ['\\', '1'] 0 m0 = ['\\', '1'] := by
    rw [substCapture_eq, replaceAllString, hb0]
    simp [replaceGo, hasPrefix]
  have h1 : substCapture ['\\', '1'] 1 m1 = m1 := by
    rw [substCapture_eq, replaceAllString, hb1]
    simp [replaceGo, hasPrefix]
    exact expand_of_inert _ _ _ (Nat.lt_succ_self _) hd
  have h2 : substSlice m1 2 ms = m1 :=
    substSlice_of_no_token m1 ms 2 (fun j _ hj =>
      hno (m0 :: m1 :: ms) (List.mem_cons_self _ _) j (by simp; omega))
  have h3 : substSlices m1 more = m1 :=
    substSlices_of_no_token m1 more (fun sl hsl j hj =>
      hno sl (List.mem_cons_of_mem _ hsl) j hj)
  rw [substSlices, substSlice, h0, substSlice, h1, h2, h3]

/-! ### The claim on the version of a scripts pattern -/

/-- C4, amended: a technology of empty declared version whose only pattern
is a scripts pattern with the version template `\1` (and a regex `re`), on a
page whose first script source matched by `re` is `s`, is reported by the
detection phase.  When the first match inside `s` has a capture group 1, of
text `m1`, the reported version is `m1` verbatim provided that no `$` of
`m1` starts a reference (`dollarsInert`) and that `m1` holds no
backreference token of an index that has a capture in a match of `s`. -/
theorem C4_script_version_is_first_capture (lowerRune : Char → Char)
    (compile : Str → Option Regexp) (inits : List application) (cache : Cache)
    (apps : GoMap application) (app : application) (raw : Str) (re : Regexp)
    (httpdata : HttpData) (pre post : List Str) (s : Str)
    (hc : initCache compile inits = some cache)
    (hin : (inits.map (fun a => a.Name)).Nodup) (hi : app ∈ inits)
    (hnd : (apps.map (fun kv => kv.2.Name)).Nodup) (hmem : app ∈ apps.map (fun kv => kv.2))
    (hS : app.Scripts = .str raw) (hU : app.URL = []) (hHTML : app.HTML = .null)
    (hC : app.Cookies = .null) (hH : app.Headers = .null) (hV : app.Version = [])
    (hre : (parsePattern compile raw).regex = some re)
    (ht : (parsePattern compile raw).version = ['\\', '1'])
    (hpre : ∀ x ∈ pre, re.matchString x = false)
    (hms : re.matchString s = true) :
    ∃ det r, detect lowerRune cache apps httpdata (pre ++ s :: post) = some det ∧
      mapGet det app.Name = some r ∧ r.Name = app.Name ∧
      ∀ (m0 m1 : Str) (ms : List Str) (more : List (List Str)),
        re.findAllStringSubmatch s = (m0 :: m1 :: ms) :: more →
        dollarsInert m1 = true →
        (∀ sl ∈ (m0 :: m1 :: ms) :: more, ∀ i, i < sl.length → ¬ backref i <:+: m1) →
        r.Version = m1 := by
  obtain ⟨c, hc1, hg⟩ := getPatterns_of_initCache compile inits cache app hc hin hi
  rw [signalPatterns_script compile app raw hS hU hHTML hC hH] at hc1
  simp only [Option.some.injEq] at hc1
  subst hc1
  have hurl : getPatterns cache app "url".toList = [("main".toList, [⟨[], none, [], []⟩])] := by
    rw [hg]; rfl
  have hsc : getPatterns cache app "scripts".toList
      = [("main".toList, [parsePattern compile raw])] := by
    rw [hg]; rfl
  have hm : re.findAllStringSubmatch s ≠ [] := by
    intro e
    simp [Regexp.matchString, e] at hms
  obtain ⟨r, hdv⟩ := detectVersion_isSome (newResult app) (parsePattern compile raw) re s hre
  have hname : r.Name = app.Name := detectVersion_name _ _ _ _ hdv
  have hver : r.Version = substSlices ['\\', '1'] (re.findAllStringSubmatch s) := by
    rw [detectVersion_of_resolved _ _ re s hre hm, ht] at hdv
    simp only [Option.some.injEq] at hdv
    rw [← hdv]
    generalize substSlices ['\\', '1'] (re.findAllStringSubmatch s) = v
    cases v with
    | nil => simp [newResult, hV]
    | cons a as => simp [newResult, hV, strGt]
  have hQ := detect_entry lowerRune cache httpdata (pre ++ s :: post) app
    (fun o => o = some r) ?_ apps hnd hmem
  · obtain ⟨out, h1, h2⟩ := hQ
    refine ⟨out, r, h1, h2, hname, fun m0 m1 ms more hs hd hno => ?_⟩
    rw [hver, hs]
    exact substSlices_template_one m0 m1 ms more hd hno
  intro det hdet
  have e1 : analyzeURL cache app httpdata.Url det = some det := by
    unfold analyzeURL; rw [hurl]; rfl
  have hstep : matchValue app (parsePattern compile raw) det s
      = some (mapSet det app.Name r) := by
    unfold matchValue
    rw [hre]
    simp only [hms, if_true]
    unfold recordMatch
    have : mapHas det app.Name = false := by simp [mapHas, hdet]
    simp only [this, Bool.false_eq_true, if_false, hdv, Option.map_some', hname]
  have hhas : mapHas (mapSet det app.Name r) app.Name = true := by
    simp [mapHas, mapGet_mapSet]
  have e2 : analyzeApp lowerRune cache httpdata (pre ++ s :: post)
      (deriveCookies httpdata.Headers) det app = some (mapSet det app.Name r) := by
    unfold analyzeApp
    rw [e1, hHTML, hH, hC, hS]
    unfold analyzeScripts
    rw [hsc]
    simp only [Val.notNil, List.foldlM, hre, Option.some_bind, Option.bind_eq_bind, if_true,
      Bool.false_eq_true, if_false, Option.bind_some, pure]
    apply foldlM_append_cons _ _ _ _ _ _ _ hstep
    · exact foldlM_fixed _ _ _ (fun x _ => matchValue_of_detected app _ _ x hhas)
    · exact foldlM_fixed _ _ _ (fun x hx => matchValue_no_match app _ re det x hre (hpre x hx))
  exact ⟨_, e2, by rw [mapGet_mapSet]; simp⟩

/-- C4, amended, at concrete inputs.  The jQuery signature of the
specification, on a page whose scripts are `/js/app.js` and
`/js/jquery.min.js?ver=3.6.0`, is detected with the version `3.6.0`.  The
signature `ver=(.+)\;version:\1` on the script `/a.js?ver=1.0$` is detected
with the version `1.0$`: the `$` at the end of the capture starts no
reference. -/
theorem C4_witness :
    detectExample [techJQuery] ⟨[], [], []⟩
        ["/js/app.js".toList, "/js/jquery.min.js?ver=3.6.0".toList]
      = some [("jQuery".toList, "3.6.0".toList)] ∧
    detectExample [techVer] ⟨[], [], []⟩ ["/a.js?ver=1.0$".toList]
      = some [("V".toList, "1.0$".toList)] ∧
    (dollarsInert "3.6.0".toList = true ∧ dollarsInert "1.0$".toList = true ∧
      dollarsInert "a$-b$\x7b\x7d".toList = true ∧ dollarsInert "$x".toList = false ∧
      dollarsInert "$$".toList = false ∧ dollarsInert "$\x7bv\x7d".toList = false) ∧
    (∃ det r, detect Char.toLower (cacheOf [techJQuery]) [("jQuery".toList, techJQuery)]
        ⟨[], [], []⟩ (["/js/app.js".toList] ++ "/js/jquery.min.js?ver=3.6.0".toList :: [])
          = some det ∧
      mapGet det techJQuery.Name = some r ∧ r.Version = "3.6.0".toList) ∧
    (∃ det r, detect Char.toLower (cacheOf [techVer]) [("V".toList, techVer)]
        ⟨[], [], []⟩ ([] ++ "/a.js?ver=1.0$".toList :: []) = some det ∧
      mapGet det techVer.Name = some r ∧ r.Version = "1.0$".toList) := by
  refine ⟨by decide, by decide, by decide, ?_, ?_⟩
  · obtain ⟨det, r, h1, h2, _, h3⟩ :=
      C4_script_version_is_first_capture Char.toLower exampleCompile [techJQuery]
        (cacheOf [techJQuery]) [("jQuery".toList, techJQuery)] techJQuery
        "jquery(?:\\.min)?\\.js(?:\\?ver(?:sion)?=([\\d.]+))?\\;version:\\1".toList
        (reJQuery.toRegexp 1) ⟨[], [], []⟩ ["/js/app.js".toList] []
        "/js/jquery.min.js?ver=3.6.0".toList
        rfl (by decide) (List.Mem.head _) (by decide) (List.Mem.head _) rfl rfl rfl rfl rfl rfl
        rfl rfl (by decide) (by decide)
    exact ⟨det, r, h1, h2, h3 "jquery.min.js?ver=3.6.0".toList "3.6.0".toList [] []
      (by decide) (by decide) (by decide)⟩
  · obtain ⟨det, r, h1, h2, _, h3⟩ :=
      C4_script_version_is_first_capture Char.toLower exampleCompile [techVer]
        (cacheOf [techVer]) [("V".toList, techVer)] techVer
        "ver=(.+)\\;version:\\1".toList
        (reVerAny.toRegexp 1) ⟨[], [], []⟩ [] [] "/a.js?ver=1.0$".toList
        rfl (by decide) (List.Mem.head _) (by decide) (List.Mem.head _) rfl rfl rfl rfl rfl rfl
        rfl rfl (by decide) (by decide)
    exact ⟨det, r, h1, h2, h3 "ver=1.0$".toList "1.0$".toList [] []
      (by decide) (by decide) (by decide)⟩

/-- C4 as stated fails: on the script source
`/js/jquery-3.6.0.min.js?ver=3.6.0` the jQuery signature matches nothing and
the detection reports no technology; and a capture is not always taken
verbatim: the capture `$x` of `ver=(.+)` gives the empty version, the capture
`\2` of `ver=(.+)-(\d)` on `ver=\2-7` gives the version `7`. -/
theorem C4_counterexample :
    detectExample [techJQuery] ⟨[], [], []⟩ ["/js/jquery-3.6.0.min.js?ver=3.6.0".toList] = some [] ∧
    ((reVerAny.toRegexp 1).findAllStringSubmatch "/a.js?ver=$x".toList
        = [["ver=$x".toList, "$x".toList]] ∧
      detectExample [techVer] ⟨[], [], []⟩ ["/a.js?ver=$x".toList] = some [("V".toList, [])]) ∧
    ((reVerTwo.toRegexp 2).findAllStringSubmatch "/a.js?ver=\\2-7".toList
        = [["ver=\\2-7".toList, "\\2".toList, "7".toList]] ∧
      detectExample [techVerTwo] ⟨[], [], []⟩ ["/a.js?ver=\\2-7".toList]
        = some [("W".toList, "7".toList)]) := by
  decide

/-! ### The pass with implications: lemmas -/

theorem excludedIn_of_entry (det : Detected) (n k : Str) (r : resultApp)
    (h : mapGet det n = some r) (hk : k ∈ relNames r.excludes) : excludedIn det k = true := by
  unfold excludedIn
  rw [List.any_eq_true]
  exact ⟨(n, r), mapGet_mem det n r h, by simpa using hk⟩

theorem impliedIn_of_entry (det : Detected) (n k : Str) (r : resultApp)
    (h : mapGet det n = some r) (hk : k ∈ relNames r.implies) : impliedIn det k = true := by
  unfold impliedIn
  rw [List.any_eq_true]
  exact ⟨(n, r), mapGet_mem det n r h, by simpa using hk⟩

theorem mapGet_of_mem {β : Type} (m : GoMap β) (hnd : (m.map (fun e => e.1)).Nodup)
    (e : Str × β) (he : e ∈ m) : mapGet m e.1 = some e.2 := by
  induction m with
  | nil => cases he
  | cons x xs ih =>
    simp only [List.map_cons, List.nodup_cons] at hnd
    obtain ⟨a, b⟩ := x
    rcases List.mem_cons.1 he with h | h
    · subst h; simp [mapGet]
    · have hne : a ≠ e.1 := fun heq => hnd.1 (heq ▸ List.mem_map_of_mem (fun e => e.1) h)
      simp [mapGet, hne, ih hnd.2 h]

theorem passResult_excluded (apps : GoMap application) (det : Detected) (k : Str)
    (h : excludedIn det k = true) : passResult apps det k = none := by
  simp [passResult, h]

theorem passResult_entry (apps : GoMap application) (det : Detected) (k : Str) (r : resultApp)
    (h : excludedIn det k = false) (hr : mapGet det k = some r) :
    passResult apps det k = some r := by
  simp [passResult, h, hr]

theorem passResult_implied (apps : GoMap application) (det : Detected) (k : Str)
    (a : application) (h : excludedIn det k = false) (hr : mapGet det k = none)
    (hi : impliedIn det k = true) (ha : mapGet apps k = some a) :
    passResult apps det k = some (newResult a) := by
  simp [passResult, h, hr, hi, ha]

theorem passResult_created (apps : GoMap application) (det : Detected) (k : Str) (r : resultApp)
    (hr : mapGet det k = none) (h : passResult apps det k = some r) :
    excludedIn det k = false ∧ impliedIn det k = true ∧
      ∃ a, mapGet apps k = some a ∧ r = newResult a := by
  unfold passResult at h
  cases he : excludedIn det k with
  | true => simp [he] at h
  | false =>
    simp only [he, Bool.false_eq_true, if_false, hr] at h
    cases hi : impliedIn det k with
    | false => simp [hi] at h
    | true =>
      simp only [hi, if_true] at h
      cases ha : mapGet apps k with
      | none => simp [ha] at h
      | some a =>
        simp only [ha, Option.map_some', Option.some.injEq] at h
        exact ⟨rfl, rfl, a, rfl, h.symm⟩

/-- One step of the pass, from a state between the start and the expected
result: it ends in such a state, keeps what has reached the expected result,
and brings to the expected result the names that the visited entry excludes
or implies. -/
theorem passStep (apps : GoMap application) (det : Detected)
    (hkey : ∀ kv ∈ apps, kv.2.Name = kv.1)
    (hwf : WellFormed det) (hi : ImpliedAreFree apps det)
    (d : Detected)
    (hinv : ∀ k, mapGet d k = mapGet det k ∨ mapGet d k = passResult apps det k) (n : Str) :
    ∃ d', resolveStep apps d n = some d' ∧
      (∀ k, mapGet d' k = mapGet det k ∨ mapGet d' k = passResult apps det k) ∧
      (∀ k, mapGet d k = passResult apps det k → mapGet d' k = passResult apps det k) ∧
      (∀ r, mapGet d n = some r → mapGet det n = some r → ∀ k,
        (k ∈ relNames r.excludes → mapGet d' k = passResult apps det k) ∧
        (k ∈ relNames r.implies → ∀ a, mapGet apps k = some a →
          mapGet d' k = passResult apps det k)) := by
  unfold resolveStep
  cases hr : mapGet d n with
  | none => exact ⟨d, rfl, hinv, fun k h => h, fun r h => by simp at h⟩
  | some r =>
    -- the visited entry is an entry of the start, or a created entry, which declares nothing
    have hkind : mapGet det n = some r ∨
        (mapGet det n = none ∧ (wfRel r.excludes = true ∧ wfRel r.implies = true) ∧
          relNames r.excludes = [] ∧ relNames r.implies = []) := by
      cases hdn : mapGet det n with
      | some r0 =>
        left
        rcases hinv n with h | h
        · rw [hr, hdn] at h; exact h.symm
        · rw [hr] at h
          cases he : excludedIn det n with
          | true => rw [passResult_excluded apps det n he] at h; cases h
          | false => rw [passResult_entry apps det n r0 he hdn] at h; exact h.symm
      | none =>
        right
        refine ⟨rfl, ?_⟩
        rcases hinv n with h | h
        · rw [hr, hdn] at h; cases h
        · rw [hr] at h
          obtain ⟨_, hin, a, ha, hra⟩ := passResult_created apps det n r hdn h.symm
          have := (hi (n, a) (mapGet_mem apps n a ha) hin).2 (by simp [mapHas, hdn])
          subst hra
          exact this
    have hwe : wfRel r.excludes = true := by
      rcases hkind with h | h
      · exact (hwf (n, r) (mapGet_mem det n r h)).1
      · exact h.2.1.1
    have hwi : wfRel r.implies = true := by
      rcases hkind with h | h
      · exact (hwf (n, r) (mapGet_mem det n r h)).2
      · exact h.2.1.2
    have hE : ∀ k, k ∈ relNames r.excludes → excludedIn det k = true := by
      intro k hk
      rcases hkind with h | h
      · exact excludedIn_of_entry det n k r h hk
      · rw [h.2.2.1] at hk; cases hk
    have hI : ∀ k, k ∈ relNames r.implies → impliedIn det k = true := by
      intro k hk
      rcases hkind with h | h
      · exact impliedIn_of_entry det n k r h hk
      · rw [h.2.2.2] at hk; cases hk
    obtain ⟨d1, e1, s1⟩ := resolveExcludes_spec r.excludes hwe d
    obtain ⟨d', e2, s2, s3⟩ := resolveImplies_spec apps hkey r.implies hwi d1
    -- what the step does under every name
    have hstep : ∀ k, (k ∈ relNames r.excludes → mapGet d' k = passResult apps det k) ∧
        (k ∉ relNames r.excludes → mapGet d' k = mapGet d k ∨
          (mapGet d k = none ∧ mapGet d' k = passResult apps det k)) := by
      intro k
      constructor
      · intro hk
        have hd1 : mapGet d1 k = none := by rw [s1 k]; simp [hk]
        rw [passResult_excluded apps det k (hE k hk)]
        rcases s2 k with h | ⟨_, hm, a, ha, _⟩
        · rw [h, hd1]
        · have := (hi (k, a) (mapGet_mem apps k a ha) (hI k hm)).1
          rw [hE k hk] at this
          cases this
      · intro hk
        have hd1 : mapGet d1 k = mapGet d k := by rw [s1 k]; simp [hk]
        rcases s2 k with h | ⟨h0, hm, a, ha, h'⟩
        · exact Or.inl (h.trans hd1)
        · right
          rw [hd1] at h0
          refine ⟨h0, ?_⟩
          have hne := (hi (k, a) (mapGet_mem apps k a ha) (hI k hm)).1
          have hdk : mapGet det k = none := by
            rcases hinv k with h | h
            · rw [← h]; exact h0
            · rw [h0] at h
              cases hdk : mapGet det k with
              | none => rfl
              | some rk => rw [passResult_entry apps det k rk hne hdk] at h; cases h
          rw [h', passResult_implied apps det k a hne hdk (hI k hm) ha]
    refine ⟨d', ?_, fun k => ?_, fun k hk => ?_, fun r' hr' hdn k => ⟨?_, ?_⟩⟩
    · simp only [guard_excludes, guard_implies]
      rw [e1]
      exact e2
    · by_cases hk : k ∈ relNames r.excludes
      · exact Or.inr ((hstep k).1 hk)
      · rcases (hstep k).2 hk with h | ⟨_, h⟩
        · rw [h]; exact hinv k
        · exact Or.inr h
    · by_cases hk' : k ∈ relNames r.excludes
      · exact (hstep k).1 hk'
      · rcases (hstep k).2 hk' with h | ⟨_, h⟩
        · rw [h]; exact hk
        · exact h
    · intro hk
      simp only [Option.some.injEq] at hr'
      subst hr'
      exact (hstep k).1 hk
    · intro hk a ha
      simp only [Option.some.injEq] at hr'
      subst hr'
      have hsome := s3 k hk a ha
      have hne := (hi (k, a) (mapGet_mem apps k a ha) (hI k hk)).1
      have hinv' : mapGet d' k = mapGet det k ∨ mapGet d' k = passResult apps det k := by
        by_cases hk' : k ∈ relNames r.excludes
        · exact Or.inr ((hstep k).1 hk')
        · rcases (hstep k).2 hk' with h | ⟨_, h⟩
          · rw [h]; exact hinv k
          · exact Or.inr h
      rcases hinv' with h | h
      · cases hdk : mapGet det k with
        | none => rw [h, hdk] at hsome; simp at hsome
        | some rk => rw [h, hdk, passResult_entry apps det k rk hne hdk]
      · exact h

/-- The pass from a state between the start and the expected result. -/
theorem passLoop (apps : GoMap application) (det : Detected)
    (hkey : ∀ kv ∈ apps, kv.2.Name = kv.1)
    (hwf : WellFormed det) (hi : ImpliedAreFree apps det)
    (order : List Str) (d : Detected)
    (hinv : ∀ k, mapGet d k = mapGet det k ∨ mapGet d k = passResult apps det k) :
    ∃ out, order.foldlM (resolveStep apps) d = some out ∧
      (∀ k, mapGet out k = mapGet det k ∨ mapGet out k = passResult apps det k) ∧
      (∀ k, mapGet d k = passResult apps det k → mapGet out k = passResult apps det k) ∧
      (∀ n ∈ order, ∀ r, mapGet det n = some r → excludedIn det n = false → ∀ k,
        (k ∈ relNames r.excludes → mapGet out k = passResult apps det k) ∧
        (k ∈ relNames r.implies → ∀ a, mapGet apps k = some a →
          mapGet out k = passResult apps det k)) := by
  induction order generalizing d with
  | nil => exact ⟨d, rfl, hinv, fun k h => h, fun n hn => by cases hn⟩
  | cons n rest ih =>
    obtain ⟨d', e1, inv1, st1, vis1⟩ := passStep apps det hkey hwf hi d hinv n
    obtain ⟨out, e2, inv2, st2, vis2⟩ := ih d' inv1
    refine ⟨out, by simp [List.foldlM, e1, e2], inv2, fun k hk => st2 k (st1 k hk), ?_⟩
    intro m hm r hr he k
    rcases List.mem_cons.1 hm with h | h
    · subst h
      have hd : mapGet d m = some r := by
        rcases hinv m with h | h
        · rw [h, hr]
        · rw [h, passResult_entry apps det m r he hr]
      obtain ⟨v1, v2⟩ := vis1 r hd hr k
      exact ⟨fun hk => st2 k (v1 hk), fun hk a ha => st2 k (v2 hk a ha)⟩
    · exact vis2 m h r hr he k

/-- The result of the pass: under every name, the expected entry. -/
theorem resolvePass_result (apps : GoMap application) (det : Detected) (order : List Str)
    (hkey : ∀ kv ∈ apps, kv.2.Name = kv.1) (hnd : (det.map (fun e => e.1)).Nodup)
    (hwf : WellFormed det) (hx : ExcludedAreInert det) (hi : ImpliedAreFree apps det)
    (hv : VisitsAll det order) :
    ∃ out, resolvePass apps det order = some out ∧
      ∀ k, mapGet out k = passResult apps det k := by
  obtain ⟨out, e, inv, _, vis⟩ := passLoop apps det hkey hwf hi order det (fun k => Or.inl rfl)
  refine ⟨out, e, fun k => ?_⟩
  have hfree : ∀ e ∈ det, (relNames e.2.excludes ≠ [] ∨ relNames e.2.implies ≠ []) →
      excludedIn det e.1 = false := by
    intro e he hne
    cases hex : excludedIn det e.1 with
    | false => rfl
    | true =>
      obtain ⟨h1, h2⟩ := hx e he hex
      rcases hne with h | h
      · exact absurd h1 h
      · exact absurd h2 h
  cases he : excludedIn det k with
  | true =>
    obtain ⟨e, hmem, hk⟩ := List.any_eq_true.1 he
    have hk' : k ∈ relNames e.2.excludes := by simpa using hk
    exact ((vis e.1 (hv e hmem) e.2 (mapGet_of_mem det hnd e hmem)
      (hfree e hmem (Or.inl (List.ne_nil_of_mem hk')))) k).1 hk'
  | false =>
    cases hdk : mapGet det k with
    | some r =>
      rcases inv k with h | h
      · rw [h, hdk, passResult_entry apps det k r he hdk]
      · exact h
    | none =>
      have hnone : passResult apps det k = none ∨
          ∃ a, impliedIn det k = true ∧ mapGet apps k = some a := by
        cases hik : impliedIn det k with
        | false => left; simp [passResult, he, hdk, hik]
        | true =>
          cases ha : mapGet apps k with
          | none => left; simp [passResult, he, hdk, hik, ha]
          | some a => right; exact ⟨a, rfl, rfl⟩
      rcases hnone with h0 | ⟨a, hik, ha⟩
      · rcases inv k with h | h
        · rw [h, hdk, h0]
        · exact h
      · obtain ⟨e, hmem, hk⟩ := List.any_eq_true.1 hik
        have hk' : k ∈ relNames e.2.implies := by simpa using hk
        exact ((vis e.1 (hv e hmem) e.2 (mapGet_of_mem det hnd e hmem)
          (hfree e hmem (Or.inr (List.ne_nil_of_mem hk')))) k).2 hk' a ha

/-! ### The claim on the order of the pass -/

/-- C18, amended: let the `excludes` and `implies` of the entries be names
or sequences of names, every entry that an entry excludes declare neither
exclusions nor implications, and every technology of the catalog that an
entry implies be excluded by no entry and, when it has no entry itself,
declare neither exclusions nor implications.  Then two passes over orders
that each visit every entry end with the same entries under every name:
none under a name that an entry excludes; otherwise the entry there was;
otherwise, for a name that an entry implies, the entry made from the
technology of that name in the catalog. -/
theorem C18_order_independent_when_targets_inert (apps : GoMap application) (det : Detected)
    (order1 order2 : List Str)
    (hkey : ∀ kv ∈ apps, kv.2.Name = kv.1) (hnd : (det.map (fun e => e.1)).Nodup)
    (hwf : WellFormed det) (hx : ExcludedAreInert det) (hi : ImpliedAreFree apps det)
    (hv1 : VisitsAll det order1) (hv2 : VisitsAll det order2) :
    ∃ out1 out2, resolvePass apps det order1 = some out1 ∧
      resolvePass apps det order2 = some out2 ∧
      (∀ k, mapGet out1 k = mapGet out2 k) ∧
      (∀ k, mapGet out1 k = passResult apps det k) := by
  obtain ⟨out1, e1, c1⟩ := resolvePass_result apps det order1 hkey hnd hwf hx hi hv1
  obtain ⟨out2, e2, c2⟩ := resolvePass_result apps det order2 hkey hnd hwf hx hi hv2
  exact ⟨out1, out2, e1, e2, fun k => by rw [c1 k, c2 k], c1⟩

/-- C18, amended, at a concrete input: `A` and `B` imply `C`, `D` excludes
`E`; `A`, `B`, `D` and `E` are matched.  Visited in one order or in the
reverse order, the pass ends with `A`, `B`, `D` and `C`, the latter with the
version `3` of the catalog. -/
theorem C18_witness :
    (resolvePass catalogMixed (allMatched (catalogMixed.take 4))
        ["A".toList, "B".toList, "D".toList, "E".toList]).map versionsOf
      = some [("A".toList, []), ("B".toList, []), ("D".toList, []), ("C".toList, "3".toList)] ∧
    (resolvePass catalogMixed (allMatched (catalogMixed.take 4))
        ["E".toList, "D".toList, "B".toList, "A".toList]).map versionsOf
      = some [("A".toList, []), ("B".toList, []), ("D".toList, []), ("C".toList, "3".toList)] ∧
    ∃ out1 out2,
      resolvePass catalogMixed (allMatched (catalogMixed.take 4))
        ["A".toList, "B".toList, "D".toList, "E".toList] = some out1 ∧
      resolvePass catalogMixed (allMatched (catalogMixed.take 4))
        ["E".toList, "D".toList, "B".toList, "A".toList] = some out2 ∧
      (∀ k, mapGet out1 k = mapGet out2 k) ∧
      (∀ k, mapGet out1 k = passResult catalogMixed (allMatched (catalogMixed.take 4)) k) :=
  ⟨by decide, by decide,
    C18_order_independent_when_targets_inert catalogMixed (allMatched (catalogMixed.take 4))
      ["A".toList, "B".toList, "D".toList, "E".toList]
      ["E".toList, "D".toList, "B".toList, "A".toList]
      (by decide) (by decide) (by decide) (by decide) (by decide) (by decide) (by decide)⟩

/-- C18 as stated fails, in each of the ways the amendment rules out.  An
excluded entry that implies: `A` excludes `B` and `B` implies `C`; with `A`
and `B` matched, the pass that visits `A` first leaves `A` alone, the pass
that visits `B` first leaves `A` and `C`.  An excluded entry that excludes:
`A` and `B` exclude each other; the entry visited first is the one left.  An
implied technology that is excluded: `A` implies `C`, `D` excludes `C`; with
`A` and `D` matched, `C` is left when `D` is visited first and not when `A`
is.  An implied technology without entry that excludes: `A` implies `C`, `C`
excludes `D`; with `A` and `D` matched, `D` is removed when the entry `C`
created by the visit of `A` is visited too, and left when it is not.  An
implied technology without entry that implies: `A` implies `C`, `C` implies
`F`; with `A` matched, `F` is added when the created entry `C` is visited
and not when it is not.  An `excludes` that is not a sequence of names: `A`
excludes `B`, whose `excludes` holds a number; the pass that visits `A`
first leaves `A`, the pass that visits `B` first panics. -/
theorem C18_counterexample :
    ((resolvePass catalogChain (allMatched (catalogChain.take 2))
          ["A".toList, "B".toList]).map namesOf = some ["A".toList] ∧
      (resolvePass catalogChain (allMatched (catalogChain.take 2))
          ["B".toList, "A".toList]).map namesOf = some ["A".toList, "C".toList]) ∧
    ((resolvePass catalogMutual (allMatched catalogMutual)
          ["A".toList, "B".toList]).map namesOf = some ["A".toList] ∧
      (resolvePass catalogMutual (allMatched catalogMutual)
          ["B".toList, "A".toList]).map namesOf = some ["B".toList]) ∧
    ((resolvePass catalogImpliedExcluded (allMatched (catalogImpliedExcluded.take 2))
          ["A".toList, "D".toList]).map namesOf = some ["A".toList, "D".toList] ∧
      (resolvePass catalogImpliedExcluded (allMatched (catalogImpliedExcluded.take 2))
          ["D".toList, "A".toList]).map namesOf
        = some ["A".toList, "D".toList, "C".toList]) ∧
    ((resolvePass catalogImpliedExcludes (allMatched (catalogImpliedExcludes.take 2))
          ["A".toList, "C".toList, "D".toList]).map namesOf = some ["A".toList, "C".toList] ∧
      (resolvePass catalogImpliedExcludes (allMatched (catalogImpliedExcludes.take 2))
          ["A".toList, "D".toList]).map namesOf
        = some ["A".toList, "D".toList, "C".toList]) ∧
    ((resolvePass catalogImpliedImplies (allMatched (catalogImpliedImplies.take 1))
          ["A".toList, "C".toList]).map namesOf
        = some ["A".toList, "C".toList, "F".toList] ∧
      (resolvePass catalogImpliedImplies (allMatched (catalogImpliedImplies.take 1))
          ["A".toList]).map namesOf = some ["A".toList, "C".toList]) ∧
    ((resolvePass catalogIllFormed (allMatched catalogIllFormed)
          ["A".toList, "B".toList]).map namesOf = some ["A".toList] ∧
      (resolvePass catalogIllFormed (allMatched catalogIllFormed)
          ["B".toList, "A".toList]).map namesOf = none) := by
  decide

end WhatWeb
